import Mathlib

/-!
# Verification of the HTTP/1.1 server engine

Shallow embedding of the protocol engine of this repository (a minimal
HTTP/1.1 server written in Go): request parsing (`ReadRequest` in
`app/http/request.go`, final iteration), the bounded body reader
(`maxByteReader`), the response writer (`app/http/response.go`), the prefix
router (`ServeMux` in `app/http/server.go`) and the per-connection serving
loop (`handleConn` in `app/http/server.go`).

Modelling conventions:
* The byte stream of a connection is a `List Char`, one `Char` per byte
  (all inputs of interest are ASCII; Go `string`s are byte strings).
* Go `int`/`int64` arithmetic is carried out in `Int` with explicit
  clamping where the Go code can overflow (`strconv.Atoi`).
* Go maps (`map[string][]string`, `map[string]string`, `map[string]muxEntry`)
  are association lists with unique keys; insertion order stands in for
  Go's (unspecified) iteration order.
* Functions of the Go standard library that the engine calls
  (`net/textproto` reading, `strings.Cut`, `strings.ToLower`,
  `strconv.Atoi`, `io.ReadAll`, `sort.Search`,
  `golang.org/x/net/http/httpguts.ValidHeaderFieldName`) are embedded
  following their documented behaviour; `strings.ToLower` is modelled on
  ASCII letters only, as every comparison in the engine is against an
  ASCII literal.
* Handlers are abstracted: the router stores an opaque handler identifier
  (`Nat`), and the serving loop takes the dispatch as a function argument.
-/

/-! ## ASCII case helpers (strings.ToLower / ToUpper, ASCII fragment) -/

/-- ASCII lower-casing of one character (Go `strings.ToLower` on ASCII). -/
def asciiToLower (c : Char) : Char :=
  if 65 ≤ c.toNat ∧ c.toNat ≤ 90 then Char.ofNat (c.toNat + 32) else c

/-- ASCII upper-casing of one character. -/
def asciiToUpper (c : Char) : Char :=
  if 97 ≤ c.toNat ∧ c.toNat ≤ 122 then Char.ofNat (c.toNat - 32) else c

/-- Model of Go `strings.ToLower`, restricted to ASCII case mapping. -/
def goToLower (s : String) : String := ⟨s.data.map asciiToLower⟩

/-! ## HTTP token grammar (golang.org/x/net/http/httpguts) -/

/-- The HTTP token character table (`httpguts.IsTokenRune`): digits, letters
and `! # $ % & ' * + - . ^ _ ` | ~` (characters named by code point). -/
def isTokenChar (c : Char) : Bool :=
  let n := c.toNat
  (48 ≤ n && n ≤ 57) || (97 ≤ n && n ≤ 122) || (65 ≤ n && n ≤ 90) ||
  n == 33 || n == 35 || n == 36 || n == 37 || n == 38 || n == 39 ||
  n == 42 || n == 43 || n == 45 || n == 46 || n == 94 || n == 95 ||
  n == 96 || n == 124 || n == 126

/-- `httpguts.ValidHeaderFieldName`: non-empty and all token characters. -/
def ValidHeaderFieldName (s : String) : Bool :=
  !s.isEmpty && s.data.all isTokenChar

/-- `isValidMethod` from `app/http/request.go`: a method is any valid
HTTP token (delegated to `httpguts.ValidHeaderFieldName`). -/
def isValidMethod (method : String) : Bool :=
  ValidHeaderFieldName method

/-! ## MIME header key canonicalization (net/textproto) -/

/-- `net/textproto.validHeaderFieldByte`: same table as the token grammar. -/
def validHeaderFieldByte (c : Char) : Bool := isTokenChar c

/-- One step of the canonicalization loop: upper-case when at the start of a
dash-separated word, lower-case otherwise. -/
def canonCaseMap (upper : Bool) (c : Char) : Char :=
  if upper then asciiToUpper c else asciiToLower c

/-- The canonicalization loop of `textproto.canonicalMIMEHeaderKey`: upper-case
a letter at the start and after each `-`, lower-case elsewhere. -/
def canonChars : Bool → List Char → List Char
  | _, [] => []
  | upper, c :: rest =>
    let c' := canonCaseMap upper c
    c' :: canonChars (c' == '-') rest

/-- `textproto.canonicalMIMEHeaderKey`: `none` when the key holds an invalid
byte (other than space); a key containing a space is accepted but left
unmodified; otherwise the canonical mixed-case form. -/
def canonicalMIMEHeaderKey (s : String) : Option String :=
  if s.data.any (fun c => !validHeaderFieldByte c && !(c == ' ')) then none
  else if s.data.any (fun c => c == ' ') then some s
  else some ⟨canonChars true s.data⟩

/-! ## Header map (`Header` in `app/http/server.go` file set) -/

/-- `type Header map[string][]string`, as an association list with unique
keys (insertion-ordered). -/
abbrev Header := List (String × List String)

/-- `Header.Get` from the repository: a *direct* (case-sensitive) map lookup
returning the first value, or `""` when the key is absent or empty. -/
def Header.get (h : Header) (key : String) : String :=
  match h.lookup key with
  | some (v :: _) => v
  | _ => ""

/-- `m[key] = append(m[key], value)` on the association-list model. -/
def Header.add (m : Header) (key value : String) : Header :=
  if (m.lookup key).isSome then
    m.map (fun kv => if kv.1 == key then (kv.1, kv.2 ++ [value]) else kv)
  else m ++ [(key, [value])]

/-! ## Line reading (bufio.ReadLine / textproto.ReadLine model) -/

/-- One `textproto.ReadLine` over the stream: take bytes up to the first
`'\n'`, stripping a trailing `"\r\n"` (or lone `"\n"`); at end of stream a
partial unterminated line is still returned as a line (per `bufio.ReadLine`),
and `none` (Go `io.EOF`) is returned only when no bytes remain. -/
def readLine (s : List Char) : Option (List Char × List Char) :=
  if s.isEmpty then none
  else
    let pre := s.takeWhile (fun c => c != '\n')
    let post := s.dropWhile (fun c => c != '\n')
    match post with
    | [] => some (pre, [])
    | _ :: rest =>
      if pre.getLast? = some '\r' then some (pre.dropLast, rest) else some (pre, rest)

/-- Space or horizontal tab. -/
def isSpTab (c : Char) : Bool := c == ' ' || c == '\t'

/-- `textproto.trim`: strip leading and trailing spaces/tabs. -/
def trimGo (l : List Char) : List Char :=
  ((l.dropWhile isSpTab).reverse.dropWhile isSpTab).reverse

theorem readLine_length {s : List Char} {line rest : List Char}
    (h : readLine s = some (line, rest)) : rest.length < s.length := by
  unfold readLine at h
  by_cases hs : s.isEmpty
  · simp [hs] at h
  · simp only [hs, if_false] at h
    have hlen : (s.takeWhile (fun c => c != '\n')).length
        + (s.dropWhile (fun c => c != '\n')).length = s.length := by
      rw [← List.length_append, List.takeWhile_append_dropWhile]
    rcases hpost : s.dropWhile (fun c => c != '\n') with _ | ⟨c, tl⟩
    · rw [hpost] at h
      simp at h
      rcases h with ⟨h1, h2⟩
      subst h2
      have : s ≠ [] := by simpa [List.isEmpty_iff] using hs
      simpa using List.length_pos.mpr this
    · rw [hpost] at h
      rw [hpost] at hlen
      by_cases hl : (s.takeWhile (fun c => c != '\n')).getLast? = some '\r' <;>
        simp only [hl, if_true, if_false, reduceIte] at h <;>
        (obtain ⟨h1, h2⟩ := Prod.mk.injEq .. ▸ Option.some.injEq .. ▸ h) <;>
        subst h2 <;> simp only [List.length_cons] at hlen <;> omega

/-! ## Continued (folded) header lines (textproto.readContinuedLineSlice) -/

/-- The folding loop: while the next byte is a space or tab, skip the run of
spaces/tabs (`skipSpace`), read the next line, and append `' '` plus the
trimmed line; a read failure breaks the loop. The `fuel` argument only
bounds the recursion; every call site passes more fuel than bytes left, so
the `0` case is never reached (each iteration consumes at least one byte,
see `contLoop_length`). -/
def contLoop : Nat → List Char → List Char → List Char × List Char
  | 0, acc, s => (acc, s)
  | fuel + 1, acc, s =>
    match s with
    | [] => (acc, [])
    | c :: rest =>
      if isSpTab c then
        match readLine ((c :: rest).dropWhile isSpTab) with
        | none => (acc, (c :: rest).dropWhile isSpTab)
        | some (l2, rest2) => contLoop fuel (acc ++ ' ' :: trimGo l2) rest2
      else (acc, c :: rest)

theorem contLoop_length : ∀ (fuel : Nat) (acc s : List Char),
    (contLoop fuel acc s).2.length ≤ s.length := by
  intro fuel
  induction fuel with
  | zero => intro acc s; exact le_refl _
  | succ fuel ih =>
    intro acc s
    match s with
    | [] => simp [contLoop]
    | c :: rest =>
      rw [contLoop]
      by_cases hsp : isSpTab c
      · simp only [hsp, if_true]
        split
        · exact (List.dropWhile_sublist _).length_le
        · rename_i l2 rest2 h
          have h1 : rest2.length < ((c :: rest).dropWhile isSpTab).length := readLine_length h
          have h2 : ((c :: rest).dropWhile isSpTab).length ≤ (c :: rest).length :=
            (List.dropWhile_sublist _).length_le
          have h4 := ih (acc ++ ' ' :: trimGo l2) rest2
          simp only [List.length_cons] at h2 ⊢
          omega
      · simp [hsp]

/-! ## Parse errors of the engine -/

/-- The error values `ReadRequest` can produce: `eof` is Go's `io.EOF`
sentinel; `badString what val` is `badStringErr` from `app/http/request.go`;
`tooManyHosts` the duplicated-`Host` error; `bodyTooLarge` the dedicated
`ErrBodyTooLarge` sentinel; `protocolError` a `textproto.ProtocolError`. -/
inductive HErr where
  | eof : HErr
  | badString : String → String → HErr
  | tooManyHosts : HErr
  | bodyTooLarge : HErr
  | protocolError : String → HErr
deriving DecidableEq

/-- One logical (possibly folded) header line: `none` (EOF) maps to `io.EOF`;
an empty line ends the header block; a non-empty first line must contain a
colon (`mustHaveFieldNameColon`); then fold continuation lines. -/
def readContinuedLine (s : List Char) : Except HErr (List Char × List Char) :=
  match readLine s with
  | none => .error .eof
  | some (line, rest) =>
    if line = [] then .ok ([], rest)
    else if !line.contains ':' then
      .error (.protocolError "malformed MIME header: missing colon")
    else .ok (contLoop (rest.length + 1) (trimGo line) rest)

theorem readContinuedLine_length {s kv rest : List Char}
    (h : readContinuedLine s = .ok (kv, rest)) : rest.length < s.length := by
  unfold readContinuedLine at h
  rcases hrl : readLine s with _ | ⟨line, rest1⟩ <;> rw [hrl] at h
  · simp at h
  · dsimp only at h
    have hr1 : rest1.length < s.length := readLine_length hrl
    by_cases hline : line = []
    · rw [if_pos hline] at h
      simp only [Except.ok.injEq, Prod.mk.injEq] at h
      obtain ⟨h1, h2⟩ := h
      rw [← h2]
      exact hr1
    · rw [if_neg hline] at h
      cases hcol : line.contains ':' <;> rw [hcol] at h
      · simp at h
      · simp only [Bool.not_true, Bool.false_eq_true, if_false, Except.ok.injEq] at h
        have h2 : (contLoop (rest1.length + 1) (trimGo line) rest1).2 = rest := by rw [h]
        have h3 := contLoop_length (rest1.length + 1) (trimGo line) rest1
        rw [h2] at h3
        omega

/-- `bytes.Cut kv ":"`: split at the first colon (`none` when absent). -/
def cutColon (l : List Char) : Option (List Char × List Char) :=
  match l.dropWhile (fun c => c != ':') with
  | [] => none
  | _ :: after => some (l.takeWhile (fun c => c != ':'), after)

/-- `textproto.validHeaderValueByte`: visible bytes, horizontal tab and
high bytes; rejects other control characters and DEL. -/
def validHeaderValueByte (c : Char) : Bool :=
  (32 ≤ c.toNat && c.toNat != 127) || c == '\t'

/-- The header loop of `textproto.readMIMEHeader`: read logical lines until a
blank line; each line is split at the first colon, the key canonicalized
(invalid key bytes are a protocol error), the value checked and stripped of
leading spaces/tabs, and appended under the key. The `fuel` argument only
bounds the recursion; each iteration consumes at least one byte
(`readContinuedLine_length`), so with more fuel than bytes the `0` case is
never reached. -/
def readMIMEHeaderLoop : Nat → List Char → Header → Except HErr (Header × List Char)
  | 0, _, _ => .error (.protocolError "malformed MIME header")
  | fuel + 1, s, m =>
    match readContinuedLine s with
    | .error e => .error e
    | .ok (kv, rest) =>
      if kv = [] then .ok (m, rest)
      else
        match cutColon kv with
        | none => .error (.protocolError "malformed MIME header line")
        | some (k, v) =>
          match canonicalMIMEHeaderKey ⟨k⟩ with
          | none => .error (.protocolError "malformed MIME header line")
          | some key =>
            if !v.all validHeaderValueByte then
              .error (.protocolError "malformed MIME header line")
            else readMIMEHeaderLoop fuel rest (m.add key ⟨v.dropWhile isSpTab⟩)

/-- `textproto.ReadMIMEHeader` (via `readMIMEHeader`): a first line starting
with a space or tab is malformed; otherwise run the header loop. -/
def readMIMEHeader (s : List Char) : Except HErr (Header × List Char) :=
  match s with
  | c :: _ =>
    if isSpTab c then .error (.protocolError "malformed MIME header initial line")
    else readMIMEHeaderLoop (s.length + 1) s []
  | [] => readMIMEHeaderLoop 1 [] []

/-! ## strconv.Atoi (with the error discarded, as in `ReadRequest`) -/

/-- Largest / smallest Go `int` (64-bit). -/
def int64Max : Int := 9223372036854775807

def int64Min : Int := -9223372036854775808

/-- Split the optional leading sign, per `strconv.ParseInt`. -/
def atoiParts (s : String) : Bool × List Char :=
  match s.data with
  | c :: rest => if c == '+' then (false, rest)
                 else if c == '-' then (true, rest)
                 else (false, s.data)
  | [] => (false, [])

/-- Digit-string syntax accepted by `strconv.Atoi`. -/
def atoiNumeric (s : String) : Bool :=
  let ds := (atoiParts s).2
  !ds.isEmpty && ds.all (fun c => 48 ≤ c.toNat && c.toNat ≤ 57)

/-- Decimal value of a digit run. -/
def digitsToNat (l : List Char) : Nat :=
  l.foldl (fun acc c => acc * 10 + (c.toNat - 48)) 0

/-- `strconv.Atoi` with its error ignored, exactly as
`contentLengthInt, _ := strconv.Atoi(contentLength)` does: `0` on a syntax
error, the value clamped to the `int64` range on a range error. -/
def goAtoi (s : String) : Int :=
  if !atoiNumeric s then 0
  else
    let (neg, ds) := atoiParts s
    let v : Int := (digitsToNat ds : Int)
    let v := if neg then -v else v
    if v > int64Max then int64Max else if v < int64Min then int64Min else v

/-! ## The bounded body reader (`maxByteReader` in `app/http/request.go`) -/

/-- `maxByteReader`: the underlying reader (modelled by the bytes it still
holds) and the remaining byte budget `n` (Go `int64`). -/
structure maxByteReader where
  r : List Char
  n : Int
deriving DecidableEq

/-- `maxByteReader.Read` for a caller buffer of `plen` bytes: budget
exhausted reports end-of-stream without touching the underlying reader;
otherwise the buffer is truncated to the budget, the underlying reader is
read (it delivers up to the requested count and reports end-of-stream only
when it holds no bytes), and the budget is decremented by the bytes
actually read. Returns (bytes read, eof flag, updated reader). -/
def maxByteReader.Read (l : maxByteReader) (plen : Nat) :
    List Char × Bool × maxByteReader :=
  if l.n ≤ 0 then ([], true, l)
  else
    let k := if (plen : Int) > l.n then l.n.toNat else plen
    let got := l.r.take k
    (got, l.r.isEmpty, ⟨l.r.drop k, l.n - got.length⟩)

/-- `io.ReadAll` over a `maxByteReader`: repeatedly read (chunks of 512
bytes, the initial capacity `ReadAll` allocates) until end-of-stream, which
`ReadAll` swallows, returning the accumulated bytes. The fuel argument only
feeds the recursion; `streamLength + 1` always suffices. -/
def ioReadAll : Nat → maxByteReader → List Char × maxByteReader
  | 0, l => ([], l)
  | fuel + 1, l =>
    match l.Read 512 with
    | (chunk, true, l') => (chunk, l')
    | (chunk, false, l') =>
      let (restB, l2) := ioReadAll fuel l'
      (chunk ++ restB, l2)

/-! ## Request and request-line parsing (`app/http/request.go`) -/

/-- `Request`: method, path (raw request-target), protocol, headers, body. -/
structure Request where
  Method : String
  Path : String
  Proto : String
  Header : Header
  Body : List Char
deriving DecidableEq

/-- `strings.Cut s " "`: split at the first space. -/
def cutSpace (s : List Char) : List Char × List Char × Bool :=
  match s.dropWhile (fun c => c != ' ') with
  | [] => (s, [], false)
  | _ :: after => (s.takeWhile (fun c => c != ' '), after, true)

/-- `parseRequestLine`: two `strings.Cut` calls; both must find a space. -/
def parseRequestLine (s : String) : String × String × String × Bool :=
  let (method, rest, ok1) := cutSpace s.data
  let (requestURI, proto, ok2) := cutSpace rest
  if !ok1 || !ok2 then ("", "", "", false)
  else (⟨method⟩, ⟨requestURI⟩, ⟨proto⟩, true)

/-- `MAX_BODY_SIZE = 1024 * 1024`. -/
def MAX_BODY_SIZE : Nat := 1024 * 1024

/-- `ReadRequest` (final iteration, `app/http/request.go`): read the request
line (EOF propagates), parse and validate it, read the MIME header block,
reject duplicated `Host`, compute `Content-Length` (errors ignored), reject
oversized declared bodies before reading, and otherwise read the body
through a `maxByteReader` via `io.ReadAll`. The second component is the
position of the buffered reader after the call. -/
def ReadRequest (stream : List Char) : Except HErr Request × List Char :=
  match readLine stream with
  | none => (.error .eof, stream)
  | some (lineChars, s1) =>
    let requestLine : String := ⟨lineChars⟩
    match parseRequestLine requestLine with
    | (_, _, _, false) => (.error (.badString "Malformed HTTP request" requestLine), s1)
    | (method, uri, proto, true) =>
      if !isValidMethod method then
        (.error (.badString "Malformed HTTP request" requestLine), s1)
      else
        match readMIMEHeader s1 with
        | .error e => (.error e, s1)
        | .ok (hdrs, s2) =>
          if ((hdrs.lookup "Host").getD []).length > 1 then
            (.error .tooManyHosts, s2)
          else
            let contentLengthInt : Int := goAtoi (hdrs.get "Content-Length")
            if contentLengthInt > (MAX_BODY_SIZE : Int) then
              (.error .bodyTooLarge, s2)
            else if contentLengthInt > 0 then
              let res := ioReadAll (s2.length + 1) ⟨s2, contentLengthInt⟩
              (.ok { Method := method, Path := uri, Proto := proto,
                     Header := hdrs, Body := res.1 }, res.2.r)
            else
              (.ok { Method := method, Path := uri, Proto := proto,
                     Header := hdrs, Body := [] }, s2)

/-! ## Response writer (`app/http/response.go`) -/

/-- `map[string]string` assignment on the association-list model: replace the
value under an existing key, else append the new pair. -/
def setHeaderL (hs : List (String × String)) (k v : String) : List (String × String) :=
  if (hs.lookup k).isSome then
    hs.map (fun kv => if kv.1 == k then (kv.1, v) else kv)
  else hs ++ [(k, v)]

/-- `Response`: status, headers, body. The bound connection is left implicit;
`Write` returns the bytes it sends to it. -/
structure Response where
  StatusCode : Nat
  StatusText : String
  Headers : List (String × String)
  Body : List Char
deriving DecidableEq

/-- `Response.SetStatus`. -/
def Response.SetStatus (r : Response) (code : Nat) (text : String) : Response :=
  { r with StatusCode := code, StatusText := text }

/-- `Response.SetHeader`. -/
def Response.SetHeader (r : Response) (k v : String) : Response :=
  { r with Headers := setHeaderL r.Headers k v }

/-- `Response.SetBody`. -/
def Response.SetBody (r : Response) (b : List Char) : Response :=
  { r with Body := b }

/-- `Response.GetBody`. -/
def Response.GetBody (r : Response) : List Char := r.Body

/-- `NewResponse(conn, req)`: status `200 OK`, empty header map, then
`Connection: close` when the request exists and asked (case-insensitively)
for `close`, else `Connection: keep-alive`. `none` models Go's `nil`
request pointer on the parse-error path. -/
def NewResponse (req : Option Request) : Response :=
  let base : Response := ⟨200, "OK", [], []⟩
  match req with
  | some rq =>
    if goToLower (rq.Header.get "Connection") = "close" then
      base.SetHeader "Connection" "close"
    else base.SetHeader "Connection" "keep-alive"
  | none => base.SetHeader "Connection" "keep-alive"

/-- Carriage return + line feed. -/
def crlf : String := "\r\n"

/-- One `"<key>: <value>\r\n"` line per header, in map order. -/
def headerLines (hs : List (String × String)) : String :=
  hs.foldl (fun acc kv => acc ++ kv.1 ++ ": " ++ kv.2 ++ crlf) ""

/-- `Response.Write`: default `Content-Type` to `text/plain` and
`Connection` to `keep-alive` when unset, overwrite `Content-Length` with the
exact body length, then serialize status line, header lines, a blank line
and the body, sent to the connection in one write. Returns the finalized
response state and the bytes written. -/
def Response.Write (r : Response) : Response × List Char :=
  let r1 := if (r.Headers.lookup "Content-Type").isSome then r
            else r.SetHeader "Content-Type" "text/plain"
  let r2 := if (r1.Headers.lookup "Connection").isSome then r1
            else r1.SetHeader "Connection" "keep-alive"
  let r3 := r2.SetHeader "Content-Length" (toString r.Body.length)
  let headerString :=
    "HTTP/1.1 " ++ toString r3.StatusCode ++ " " ++ r3.StatusText ++ crlf
      ++ headerLines r3.Headers ++ crlf
  (r3, headerString.data ++ r3.Body)

/-! ## The prefix router (`ServeMux` in `app/http/server.go`) -/

/-- A registered route: an opaque handler identifier and its pattern. -/
structure muxEntry where
  h : Nat
  pattern : String
deriving DecidableEq

instance : Inhabited muxEntry := ⟨⟨0, ""⟩⟩

/-- `ServeMux`: the exact-match map `m` and the prefix list `es`
(kept sorted from longest to shortest pattern). -/
structure ServeMux where
  m : List (String × muxEntry)
  es : List muxEntry
deriving DecidableEq

/-- The loop of Go `sort.Search`: binary search for the smallest index in
`[i, j)` satisfying `f` (assuming `f` monotone), returning `j` if none. The
`fuel` argument only bounds the recursion; the interval shrinks at every
step, so `j - i + 1` units always suffice. -/
def searchLoop (f : Nat → Bool) : Nat → Nat → Nat → Nat
  | 0, i, _ => i
  | fuel + 1, i, j =>
    if i < j then
      let mid := (i + j) / 2
      if f mid then searchLoop f fuel i mid else searchLoop f fuel (mid + 1) j
    else i

/-- `sort.Search(n, f)`. -/
def sortSearch (n : Nat) (f : Nat → Bool) : Nat := searchLoop f (n + 1) 0 n

/-- `appendSorted`: binary-search the insertion point (first entry whose
pattern is no longer than the new one) and insert there, keeping the list
sorted from longest to shortest pattern. -/
def appendSorted (es : List muxEntry) (e : muxEntry) : List muxEntry :=
  let n := es.length
  let i := sortSearch n (fun i => decide ((es.getD i default).pattern.length ≤ e.pattern.length))
  if i = n then es ++ [e]
  else es.take i ++ e :: es.drop i

/-- The pattern qualifies for the prefix list: more than one byte long and
ending in `'/'`. -/
def isPrefixPattern (pattern : String) : Bool :=
  decide (1 < pattern.length) && pattern.data.getLast? == some '/'

/-- `ServeMux.Handle`: `none` models the `panic` on duplicate registration;
otherwise record the exact route and, when the pattern is longer than one
byte and ends in `'/'`, insert it into the sorted prefix list. -/
def ServeMux.Handle (mux : ServeMux) (pattern : String) (handler : Nat) :
    Option ServeMux :=
  if (mux.m.lookup pattern).isSome then none
  else
    let e : muxEntry := ⟨handler, pattern⟩
    some { m := (pattern, e) :: mux.m,
           es := if isPrefixPattern pattern then appendSorted mux.es e else mux.es }

/-- `strings.HasPrefix`. -/
def hasPrefixGo (s pre : String) : Bool :=
  List.isPrefixOf pre.data s.data

/-- `ServeMux.findHandler`: exact map hit first, then the first (i.e.
longest) matching entry of the sorted prefix list, else no handler. -/
def ServeMux.findHandler (mux : ServeMux) (r : Request) : Option Nat × String :=
  match mux.m.lookup r.Path with
  | some v => (some v.h, v.pattern)
  | none =>
    match mux.es.find? (fun e => hasPrefixGo r.Path e.pattern) with
    | some e => (some e.h, e.pattern)
    | none => (none, "")

/-- `ServeMux.ServeHTTP`: when no handler is found, write a `404 Not Found`
response with body `Not Found` and invoke nothing; otherwise the found
handler is invoked (its identifier is returned; its own writes are its
own). Returns (invoked handler, bytes the mux itself writes). -/
def ServeMux.ServeHTTP (mux : ServeMux) (w : Response) (r : Request) :
    Option Nat × List Char :=
  match (mux.findHandler r).1 with
  | none => (none, (((w.SetStatus 404 "Not Found").SetBody ("Not Found".data)).Write).2)
  | some h => (some h, [])

/-- A sequence of `Handle` registrations starting from the zero mux;
`none` when any registration panics. -/
def buildMux (regs : List (String × Nat)) : Option ServeMux :=
  regs.foldlM (fun mux pr => mux.Handle pr.1 pr.2) ⟨[], []⟩

/-! ## The per-connection serving loop (`handleConn` in `app/http/server.go`) -/

/-- One iteration of the `handleConn` loop, with the handler dispatch
(`serverHandler{svr: s}.ServeHTTP`) abstracted as `apply`, returning the
bytes it writes. Result: (bytes written this iteration, `some rest` to keep
reading on the connection / `none` to close it). On a parse error: `io.EOF`
closes silently; `ErrBodyTooLarge` writes a 413 `Payload Too Large`
response and closes; any other error writes a 400 `Bad Request` response
and closes. On success the response is built from the request, the handler
runs, and the connection closes exactly when the request's `Connection`
header (lower-cased) equals `close`. -/
def handleConnStep (apply : Response → Request → List Char) (stream : List Char) :
    List Char × Option (List Char) :=
  match ReadRequest stream with
  | (.error e, _) =>
    if e = .eof then ([], none)
    else
      let res := NewResponse none
      let res := if e = .bodyTooLarge then
          (res.SetStatus 413 "Payload Too Large").SetBody ("Payload Too Large".data)
        else
          (res.SetStatus 400 "Bad Request").SetBody ("Bad Request".data)
      ((res.Write).2, none)
  | (.ok req, rest) =>
    let res := NewResponse (some req)
    let out := apply res req
    if goToLower (req.Header.get "Connection") = "close" then (out, none)
    else (out, some rest)

/-- The full `handleConn` loop (fuel-bounded iteration of the step),
accumulating everything written to the connection. -/
def handleConn (apply : Response → Request → List Char) :
    Nat → List Char → List Char
  | 0, _ => []
  | fuel + 1, stream =>
    match handleConnStep apply stream with
    | (out, none) => out
    | (out, some rest) => out ++ handleConn apply fuel rest

/-! ## Association-list helper lemmas -/

theorem lookup_mem {α β : Type} [BEq α] [LawfulBEq α] {l : List (α × β)} {k : α} {v : β}
    (h : l.lookup k = some v) : (k, v) ∈ l := by
  induction l with
  | nil => simp [List.lookup] at h
  | cons a t ih =>
    obtain ⟨a1, a2⟩ := a
    cases hka : k == a1 <;> simp [List.lookup_cons, hka] at h
    · exact List.mem_cons_of_mem _ (ih h)
    · subst h
      have : k = a1 := eq_of_beq hka
      subst this
      exact List.mem_cons_self _ _

theorem lookup_eq_none_of_not_mem_keys {α β : Type} [BEq α] [LawfulBEq α]
    {l : List (α × β)} {k : α} (h : k ∉ l.map Prod.fst) : l.lookup k = none := by
  induction l with
  | nil => simp [List.lookup]
  | cons a t ih =>
    obtain ⟨a1, a2⟩ := a
    simp only [List.map_cons, List.mem_cons] at h
    push_neg at h
    rw [List.lookup_cons]
    have : (k == a1) = false := beq_false_of_ne h.1
    rw [this]
    exact ih h.2

theorem setHeaderL_lookup_self (hs : List (String × String)) (k v : String) :
    (setHeaderL hs k v).lookup k = some v := by
  unfold setHeaderL
  by_cases hk : (hs.lookup k).isSome
  · rw [if_pos hk]
    induction hs with
    | nil => simp [List.lookup] at hk
    | cons a t ih =>
      obtain ⟨a1, a2⟩ := a
      cases hka : k == a1
      · rw [List.lookup_cons, hka] at hk
        simp only [List.map_cons]
        have ha : (a1 == k) = false :=
          beq_false_of_ne (Ne.symm (ne_of_beq_false hka))
        rw [ha]
        simp only [Bool.false_eq_true, if_false, List.lookup_cons, hka]
        exact ih hk
      · have hk1 : k = a1 := eq_of_beq hka
        subst hk1
        simp [List.lookup_cons]
  · rw [if_neg hk]
    induction hs with
    | nil => simp [List.lookup]
    | cons a t ih =>
      obtain ⟨a1, a2⟩ := a
      cases hka : k == a1
      · simp only [List.cons_append, List.lookup_cons, hka]
        apply ih
        rw [List.lookup_cons, hka] at hk
        exact hk
      · rw [List.lookup_cons, hka] at hk
        simp at hk

theorem setHeaderL_lookup_other (hs : List (String × String)) (k v k' : String)
    (hne : k' ≠ k) : (setHeaderL hs k v).lookup k' = hs.lookup k' := by
  have hne' : (k' == k) = false := beq_false_of_ne hne
  unfold setHeaderL
  by_cases hk : (hs.lookup k).isSome
  · rw [if_pos hk]
    clear hk
    induction hs with
    | nil => simp
    | cons a t ih =>
      obtain ⟨a1, a2⟩ := a
      simp only [List.map_cons]
      cases ha1 : a1 == k
      · simp only [Bool.false_eq_true, if_false, List.lookup_cons]
        cases hk'a : k' == a1 <;> simp [hk'a] <;> simpa using ih
      · have : a1 = k := eq_of_beq ha1
        subst this
        cases hk'a : k' == a1
        · simp only [beq_self_eq_true, if_true, List.lookup_cons, hk'a]
          simpa using ih
        · exact absurd (eq_of_beq hk'a) (by simpa using hne)
  · rw [if_neg hk]
    clear hk
    induction hs with
    | nil => simp [List.lookup, hne']
    | cons a t ih =>
      obtain ⟨a1, a2⟩ := a
      simp only [List.cons_append, List.lookup_cons]
      cases hk'a : k' == a1 <;> simp [ih]

/-! ## C9: the bounded reader -/

/-- An arbitrary sequence of `Read` calls with buffer sizes `ps`,
accumulating the delivered bytes. -/
def readMany (l : maxByteReader) : List Nat → List Char × maxByteReader
  | [] => ([], l)
  | p :: ps =>
    let r1 := l.Read p
    let r2 := readMany r1.2.2 ps
    (r1.1 ++ r2.1, r2.2)

theorem maxByteReader_Read_step (l : maxByteReader) (plen : Nat) :
    (l.Read plen).1.length ≤ l.r.length ∧
    ((l.Read plen).2.2).n = l.n - ((l.Read plen).1.length : Int) ∧
    ((l.Read plen).2.2).r.length = l.r.length - (l.Read plen).1.length ∧
    min l.n 0 ≤ ((l.Read plen).2.2).n := by
  unfold maxByteReader.Read
  by_cases hn : l.n ≤ 0
  · simp [hn] <;> omega
  · simp only [hn, if_false]
    refine ⟨by simpa using List.length_take_le _ _, ?_, ?_, ?_⟩
    · simp
    · simp only [List.length_drop, List.length_take]
      omega
    · simp only [List.length_take]
      split
      · rename_i hgt
        have h0 : (0:Int) < l.n := by omega
        have : (l.n.toNat : Int) = l.n := Int.toNat_of_nonneg (by omega)
        have hmin : min l.n.toNat l.r.length ≤ l.n.toNat := min_le_left _ _
        omega
      · rename_i hle
        have : ((plen : Int)) ≤ l.n := by omega
        have hmin : (min plen l.r.length : Int) ≤ (plen : Int) := by
          exact_mod_cast Nat.cast_le.mpr (min_le_left _ _)
        omega

theorem readMany_spec : ∀ (ps : List Nat) (l : maxByteReader),
    ((readMany l ps).2).n = l.n - ((readMany l ps).1.length : Int) ∧
    ((readMany l ps).2).r.length = l.r.length - (readMany l ps).1.length ∧
    (readMany l ps).1.length ≤ l.r.length ∧
    min l.n 0 ≤ ((readMany l ps).2).n := by
  intro ps
  induction ps with
  | nil => intro l; simp [readMany] <;> omega
  | cons p ps ih =>
    intro l
    obtain ⟨s1, s2, s3, s4⟩ := maxByteReader_Read_step l p
    obtain ⟨i1, i2, i3, i4⟩ := ih (l.Read p).2.2
    simp only [readMany, List.length_append]
    refine ⟨by push_cast; omega, by omega, by omega, ?_⟩
    have : min l.n 0 ≤ min ((l.Read p).2.2).n 0 := by omega
    omega

/-- C9: `maxByteReader` with remaining budget `n`: a read with exhausted
budget returns no bytes and end-of-stream leaving the reader untouched;
otherwise the requested size is truncated to the budget (so at most
`min plen n` bytes are delivered), `n` decreases by exactly the bytes read
and the underlying stream advances by exactly the bytes read; across any
sequence of reads at most the initial budget is delivered and the
underlying stream never advances past the initial budget. -/
theorem c9_maxByteReader_budget (l : maxByteReader) (plen : Nat) (ps : List Nat) :
    (l.n ≤ 0 → l.Read plen = ([], true, l)) ∧
    (0 < l.n →
      (l.Read plen).1.length ≤ min plen l.n.toNat ∧
      ((l.Read plen).2.2).n = l.n - ((l.Read plen).1.length : Int) ∧
      ((l.Read plen).2.2).r = l.r.drop (l.Read plen).1.length) ∧
    (readMany l ps).1.length ≤ l.n.toNat ∧
    l.r.length - ((readMany l ps).2).r.length ≤ l.n.toNat := by
  refine ⟨?_, ?_, ?_, ?_⟩
  · intro hn
    unfold maxByteReader.Read
    rw [if_pos hn]
  · intro hn
    have hnle : ¬ l.n ≤ 0 := by omega
    unfold maxByteReader.Read
    simp only [hnle, if_false]
    refine ⟨?_, by simp, ?_⟩
    · simp only [List.length_take]
      split
      · rename_i hgt
        exact le_trans (min_le_left _ _) (le_min (by omega) (le_refl _))
      · rename_i hle
        have : plen ≤ l.n.toNat := by omega
        exact le_trans (min_le_left _ _) (le_min (le_refl _) this)
    · simp only [List.length_take]
      rcases Nat.le_total (if (plen : Int) > l.n then l.n.toNat else plen) l.r.length with hc | hc
      · rw [min_eq_left hc]
      · rw [min_eq_right hc, List.drop_eq_nil_of_le hc,
            List.drop_eq_nil_of_le (le_of_eq rfl)]
  · obtain ⟨i1, i2, i3, i4⟩ := readMany_spec ps l
    omega
  · obtain ⟨i1, i2, i3, i4⟩ := readMany_spec ps l
    omega

/-- Witness for C9 at a concrete reader: budget 3 over six bytes, one large
read then a sequence of reads. -/
theorem c9_maxByteReader_budget_witness :
    (0:Int) < 3 ∧
    ((⟨"abcdef".data, 3⟩ : maxByteReader).Read 10).1.length ≤ min 10 (Int.toNat 3) ∧
    (readMany ⟨"abcdef".data, 3⟩ [2, 2, 2]).1.length ≤ Int.toNat 3 := by
  refine ⟨by norm_num, ?_, ?_⟩
  · exact ((c9_maxByteReader_budget ⟨"abcdef".data, 3⟩ 10 [2,2,2]).2.1 (by norm_num)).1
  · exact (c9_maxByteReader_budget ⟨"abcdef".data, 3⟩ 10 [2,2,2]).2.2.1

/-! ## io.ReadAll over the bounded reader -/

theorem take_chunk {α : Type} (l : List α) (a b : Nat) (h : a ≤ b) :
    l.take a ++ (l.drop a).take (b - a) = l.take b := by
  rw [← List.take_add]
  congr 1
  omega

theorem drop_chunk {α : Type} (l : List α) (a b : Nat) (h : a ≤ b) :
    (l.drop a).drop (b - a) = l.drop b := by
  rw [List.drop_drop]
  congr 1
  omega

theorem ioReadAll_take_drop : ∀ (fuel : Nat) (s : List Char) (n : Int),
    s.length < fuel → 0 < n →
    (ioReadAll fuel ⟨s, n⟩).1 = s.take n.toNat ∧
    (ioReadAll fuel ⟨s, n⟩).2.r = s.drop n.toNat := by
  intro fuel
  induction fuel with
  | zero => intro s n h; omega
  | succ fuel ih =>
    intro s n hlen hn
    have hnle : ¬ n ≤ 0 := by omega
    cases s with
    | nil => simp [ioReadAll, maxByteReader.Read, hnle]
    | cons c s0 =>
      set K := if ((512:Nat) : Int) > n then n.toNat else 512 with hKdef
      have hK1 : 1 ≤ K := by
        rw [hKdef]; split <;> omega
      have hK2 : (K : Int) ≤ n := by
        rw [hKdef]; split <;> omega
      have hK3 : K ≤ n.toNat := by
        rw [hKdef]; split <;> omega
      have hread : (⟨c :: s0, n⟩ : maxByteReader).Read 512 =
          ((c :: s0).take K, false,
            ⟨(c :: s0).drop K, n - (((c :: s0).take K).length : Int)⟩) := by
        unfold maxByteReader.Read
        rw [if_neg hnle]
        simp only [List.isEmpty_cons]
      have hstep : ioReadAll (fuel + 1) ⟨c :: s0, n⟩ =
          ((c :: s0).take K ++
            (ioReadAll fuel ⟨(c :: s0).drop K,
              n - (((c :: s0).take K).length : Int)⟩).1,
           (ioReadAll fuel ⟨(c :: s0).drop K,
              n - (((c :: s0).take K).length : Int)⟩).2) := by
        rw [ioReadAll, hread]
      rw [hstep]
      have hlenTake : ((c :: s0).take K).length = min K (c :: s0).length :=
        List.length_take _ _
      by_cases hstop : n - (((c :: s0).take K).length : Int) ≤ 0
      · -- the budget is exhausted after this chunk: the next read reports EOF
        have hC : ((c :: s0).take K).length = n.toNat := by
          have h1 : ((c :: s0).take K).length ≤ K := by
            rw [hlenTake]; omega
          omega
        have hKn : K = n.toNat := by omega
        have hnext : ioReadAll fuel
            ⟨(c :: s0).drop K, n - (((c :: s0).take K).length : Int)⟩ =
            ([], ⟨(c :: s0).drop K, n - (((c :: s0).take K).length : Int)⟩) := by
          cases fuel with
          | zero =>
            simp only [List.length_cons] at hlen
            omega
          | succ fuel =>
            rw [ioReadAll]
            unfold maxByteReader.Read
            rw [if_pos hstop]
        rw [hnext, hKn]
        exact ⟨by simp, by simp⟩
      · -- budget still positive: recurse on the rest of the stream
        have hC : ((c :: s0).take K).length ≤ K := by rw [hlenTake]; omega
        obtain ⟨h1, h2⟩ := ih ((c :: s0).drop K)
            (n - (((c :: s0).take K).length : Int))
            (by
              simp only [List.length_drop, List.length_cons]
              simp only [List.length_cons] at hlen
              omega)
            (by omega)
        constructor
        · rw [h1]
          by_cases hfull : K ≤ (c :: s0).length
          · have hCK : ((c :: s0).take K).length = K := by rw [hlenTake]; omega
            rw [hCK]
            have htn : (n - (K:Int)).toNat = n.toNat - K := by omega
            rw [htn]
            exact take_chunk _ _ _ hK3
          · -- the chunk already holds the whole stream
            push_neg at hfull
            have hCl : ((c :: s0).take K).length = (c :: s0).length := by
              rw [hlenTake]; omega
            rw [hCl] at hstop
            have hlenn : (c :: s0).length ≤ n.toNat := by omega
            have htake : (c :: s0).take K = c :: s0 :=
              List.take_of_length_le (by omega)
            have hdrop : (c :: s0).drop K = [] :=
              List.drop_eq_nil_of_le (by omega)
            rw [htake, hdrop, List.take_of_length_le hlenn]
            simp
        · rw [h2]
          by_cases hfull : K ≤ (c :: s0).length
          · have hCK : ((c :: s0).take K).length = K := by rw [hlenTake]; omega
            rw [hCK]
            have htn : (n - (K:Int)).toNat = n.toNat - K := by omega
            rw [htn]
            exact drop_chunk _ _ _ hK3
          · push_neg at hfull
            have hCl : ((c :: s0).take K).length = (c :: s0).length := by
              rw [hlenTake]; omega
            rw [hCl] at hstop
            have hlenn : (c :: s0).length ≤ n.toNat := by omega
            have hdrop : (c :: s0).drop K = [] :=
              List.drop_eq_nil_of_le (by omega)
            rw [hdrop]
            simp only [List.drop_nil]
            rw [eq_comm]
            exact List.drop_eq_nil_of_le hlenn

/-! ## C6: Response.Write serialization -/

/-- C6: `Write` serializes exactly the status line, one header line per
entry of the finalized header map, a blank line, then the body; in the
finalized (serialized) headers `Content-Length` always equals the exact
byte length of the body — whatever the caller set — and `Content-Type` is
`text/plain` whenever the caller set none. -/
theorem c6_response_write (r : Response) :
    (r.Write).2 =
      ("HTTP/1.1 " ++ toString r.StatusCode ++ " " ++ r.StatusText ++ crlf
        ++ headerLines ((r.Write).1.Headers) ++ crlf).data ++ r.Body ∧
    ((r.Write).1).Headers.lookup "Content-Length" = some (toString r.Body.length) ∧
    ("Content-Length", toString r.Body.length) ∈ ((r.Write).1).Headers ∧
    (r.Headers.lookup "Content-Type" = none →
      ((r.Write).1).Headers.lookup "Content-Type" = some "text/plain") := by
  have hlen : ((r.Write).1).Headers.lookup "Content-Length"
      = some (toString r.Body.length) := by
    unfold Response.Write
    dsimp only [Response.SetHeader]
    exact setHeaderL_lookup_self _ _ _
  refine ⟨?_, hlen, lookup_mem hlen, ?_⟩
  · unfold Response.Write
    dsimp only [Response.SetHeader]
    simp [apply_ite Response.StatusCode, apply_ite Response.StatusText,
          apply_ite Response.Body, Response.SetHeader, ite_self]
  · intro hnone
    have hct : (r.Headers.lookup "Content-Type").isSome = false := by
      rw [hnone]; rfl
    unfold Response.Write
    dsimp only [Response.SetHeader]
    rw [setHeaderL_lookup_other _ _ _ _ (by decide)]
    simp only [hct, Bool.false_eq_true, if_false]
    split
    · rename_i hcn
      dsimp only [Response.SetHeader]
      exact setHeaderL_lookup_self _ _ _
    · rename_i hcn
      dsimp only [Response.SetHeader]
      rw [setHeaderL_lookup_other _ _ _ _ (by decide)]
      exact setHeaderL_lookup_self _ _ _

/-- Witness for C6 at a concrete response that sets no `Content-Type`. -/
theorem c6_response_write_witness :
    ([] : List (String × String)).lookup "Content-Type" = none ∧
    (((⟨200, "OK", [], "hi".data⟩ : Response).Write).1).Headers.lookup "Content-Type"
      = some "text/plain" := by
  exact ⟨rfl, (c6_response_write ⟨200, "OK", [], "hi".data⟩).2.2.2 rfl⟩

/-! ## C1: error-to-response mapping of the serving loop -/

/-- C1: whenever `ReadRequest` fails, the serving loop closes the
connection; on `io.EOF` it writes nothing, on `ErrBodyTooLarge` it writes
exactly the serialization of a `413` response with body
`Payload Too Large`, and on any other parse error exactly the
serialization of a `400` response with body `Bad Request`. -/
theorem c1_parse_error_responses (apply : Response → Request → List Char)
    (stream : List Char) (e : HErr) (fuel : Nat)
    (h : (ReadRequest stream).1 = .error e) :
    (handleConnStep apply stream).2 = none ∧
    handleConn apply (fuel + 1) stream = (handleConnStep apply stream).1 ∧
    (e = .eof → handleConnStep apply stream = ([], none)) ∧
    (e = .bodyTooLarge → handleConnStep apply stream =
      (((((NewResponse none).SetStatus 413 "Payload Too Large").SetBody
          ("Payload Too Large".data)).Write).2, none)) ∧
    (e ≠ .eof → e ≠ .bodyTooLarge → handleConnStep apply stream =
      (((((NewResponse none).SetStatus 400 "Bad Request").SetBody
          ("Bad Request".data)).Write).2, none)) := by
  rcases hrr : ReadRequest stream with ⟨res, pos⟩
  rw [hrr] at h
  simp only at h
  subst h
  have hstep : handleConnStep apply stream =
      (if e = .eof then ([], none)
       else
        (((if e = .bodyTooLarge then
            ((NewResponse none).SetStatus 413 "Payload Too Large").SetBody
              ("Payload Too Large".data)
          else
            ((NewResponse none).SetStatus 400 "Bad Request").SetBody
              ("Bad Request".data)).Write).2, none)) := by
    unfold handleConnStep
    rw [hrr]
  have hsnd : (handleConnStep apply stream).2 = none := by
    rw [hstep]
    by_cases he : e = .eof
    · rw [if_pos he]
    · rw [if_neg he]
  refine ⟨hsnd, ?_, ?_, ?_, ?_⟩
  · rcases hs : handleConnStep apply stream with ⟨out, o⟩
    rw [hs] at hsnd
    simp only at hsnd
    subst hsnd
    simp [handleConn, hs]
  · intro he
    rw [hstep, if_pos he]
  · intro hb
    have he : e ≠ .eof := by subst hb; simp
    rw [hstep, if_neg he, if_pos hb]
  · intro he hb
    rw [hstep, if_neg he, if_neg hb]

/-- Witness for C1: the empty stream yields `io.EOF` and a silent close; a
declared `Content-Length` one byte over the maximum yields the 413 path. -/
theorem c1_parse_error_responses_witness :
    (ReadRequest []).1 = Except.error HErr.eof ∧
    handleConnStep (fun _ _ => []) [] = ([], none) ∧
    (ReadRequest ("POST / HTTP/1.1\r\nContent-Length: 1048577\r\n\r\n").data).1
      = Except.error HErr.bodyTooLarge ∧
    handleConnStep (fun _ _ => []) ("POST / HTTP/1.1\r\nContent-Length: 1048577\r\n\r\n").data
      = (((((NewResponse none).SetStatus 413 "Payload Too Large").SetBody
          ("Payload Too Large".data)).Write).2, none) := by
  have h1 : (ReadRequest []).1 = Except.error HErr.eof := rfl
  have h2 : (ReadRequest ("POST / HTTP/1.1\r\nContent-Length: 1048577\r\n\r\n").data).1
      = Except.error HErr.bodyTooLarge := rfl
  refine ⟨h1, ?_, h2, ?_⟩
  · exact (c1_parse_error_responses (fun _ _ => []) [] HErr.eof 0 h1).2.2.1 rfl
  · exact (c1_parse_error_responses (fun _ _ => [])
      ("POST / HTTP/1.1\r\nContent-Length: 1048577\r\n\r\n").data
      HErr.bodyTooLarge 0 h2).2.2.2.1 rfl

/-! ## C3: keep-alive vs Connection: close -/

/-- C3: for every successfully parsed request, the response built for it
carries `Connection: close` exactly when the request's `Connection` header
equals `close` up to ASCII case — in which case the loop writes the
handler's output and closes without reading further — and otherwise
carries `Connection: keep-alive`, and the loop goes on to read the next
request from the rest of the same connection's stream. -/
theorem c3_connection_close (apply : Response → Request → List Char)
    (stream : List Char) (req : Request) (rest : List Char) (fuel : Nat)
    (h : ReadRequest stream = (.ok req, rest)) :
    (goToLower (req.Header.get "Connection") = "close" →
      (NewResponse (some req)).Headers.lookup "Connection" = some "close" ∧
      handleConnStep apply stream = (apply (NewResponse (some req)) req, none) ∧
      handleConn apply (fuel + 1) stream = apply (NewResponse (some req)) req) ∧
    (goToLower (req.Header.get "Connection") ≠ "close" →
      (NewResponse (some req)).Headers.lookup "Connection" = some "keep-alive" ∧
      handleConnStep apply stream = (apply (NewResponse (some req)) req, some rest) ∧
      handleConn apply (fuel + 1) stream =
        apply (NewResponse (some req)) req ++ handleConn apply fuel rest) := by
  constructor
  · intro hc
    have hstep : handleConnStep apply stream =
        (apply (NewResponse (some req)) req, none) := by
      unfold handleConnStep
      rw [h]
      simp only [hc, if_pos]
    refine ⟨?_, hstep, ?_⟩
    · unfold NewResponse
      dsimp only
      rw [if_pos hc]
      dsimp only [Response.SetHeader]
      exact setHeaderL_lookup_self _ _ _
    · simp [handleConn, hstep]
  · intro hc
    have hstep : handleConnStep apply stream =
        (apply (NewResponse (some req)) req, some rest) := by
      unfold handleConnStep
      rw [h]
      simp only [hc, if_neg, if_false]
    refine ⟨?_, hstep, ?_⟩
    · unfold NewResponse
      dsimp only
      rw [if_neg hc]
      dsimp only [Response.SetHeader]
      exact setHeaderL_lookup_self _ _ _
    · simp [handleConn, hstep]

/-- Witness for C3: a request with `Connection: close` closes after the
dispatch; one without it keeps the (here empty) rest of the stream alive. -/
theorem c3_connection_close_witness :
    ReadRequest ("GET / HTTP/1.1\r\nConnection: close\r\n\r\n").data
      = (.ok ⟨"GET", "/", "HTTP/1.1", [("Connection", ["close"])], []⟩, []) ∧
    handleConnStep (fun _ _ => []) ("GET / HTTP/1.1\r\nConnection: close\r\n\r\n").data
      = ([], none) ∧
    ReadRequest ("GET / HTTP/1.1\r\n\r\n").data
      = (.ok ⟨"GET", "/", "HTTP/1.1", [], []⟩, []) ∧
    handleConnStep (fun _ _ => []) ("GET / HTTP/1.1\r\n\r\n").data
      = ([], some []) := by
  have h1 : ReadRequest ("GET / HTTP/1.1\r\nConnection: close\r\n\r\n").data
      = (.ok ⟨"GET", "/", "HTTP/1.1", [("Connection", ["close"])], []⟩, []) := rfl
  have h2 : ReadRequest ("GET / HTTP/1.1\r\n\r\n").data
      = (.ok ⟨"GET", "/", "HTTP/1.1", [], []⟩, []) := rfl
  refine ⟨h1, ?_, h2, ?_⟩
  · exact ((c3_connection_close (fun _ _ => []) _ _ _ 0 h1).1 rfl).2.1
  · exact ((c3_connection_close (fun _ _ => []) _ _ _ 0 h2).2 (by decide)).2.1

/-! ## Request-line parsing helper lemmas -/

theorem takeWhile_append_all {p : Char → Bool} :
    ∀ (l1 l2 : List Char), (∀ c ∈ l1, p c = true) →
    (l1 ++ l2).takeWhile p = l1 ++ l2.takeWhile p := by
  intro l1
  induction l1 with
  | nil => intro l2 h; simp
  | cons c t ih =>
    intro l2 h
    have hc : p c = true := h c (List.mem_cons_self _ _)
    simp only [List.cons_append, List.takeWhile_cons, hc, if_pos]
    rw [ih l2 (fun x hx => h x (List.mem_cons_of_mem _ hx))]

theorem dropWhile_append_all {p : Char → Bool} :
    ∀ (l1 l2 : List Char), (∀ c ∈ l1, p c = true) →
    (l1 ++ l2).dropWhile p = l2.dropWhile p := by
  intro l1
  induction l1 with
  | nil => intro l2 h; simp
  | cons c t ih =>
    intro l2 h
    have hc : p c = true := h c (List.mem_cons_self _ _)
    simp only [List.cons_append, List.dropWhile_cons, hc, if_pos]
    exact ih l2 (fun x hx => h x (List.mem_cons_of_mem _ hx))

theorem dropWhile_head_false {p : Char → Bool} :
    ∀ (l : List Char) (c : Char) (t : List Char),
    l.dropWhile p = c :: t → p c = false := by
  intro l
  induction l with
  | nil => intro c t h; simp at h
  | cons a l ih =>
    intro c t h
    rw [List.dropWhile_cons] at h
    by_cases ha : p a
    · rw [if_pos ha] at h
      exact ih c t h
    · rw [if_neg ha] at h
      obtain ⟨h1, h2⟩ := List.cons.injEq .. ▸ h
      subst h1
      simpa using ha

/-- `readLine` on a well-formed CRLF-terminated line. -/
theorem readLine_crlf {L : List Char} (rest : List Char)
    (hn : '\n' ∉ L) (hr : '\r' ∉ L) :
    readLine (L ++ '\r' :: '\n' :: rest) = some (L, rest) := by
  have hall : ∀ c ∈ L, (c != '\n') = true := by
    intro c hc
    have : c ≠ '\n' := fun he => hn (he ▸ hc)
    simpa using this
  have hne : (L ++ '\r' :: '\n' :: rest).isEmpty = false := by
    cases L <;> rfl
  unfold readLine
  rw [hne]
  simp only [Bool.false_eq_true, if_false]
  rw [takeWhile_append_all _ _ hall, dropWhile_append_all _ _ hall]
  have ht : ('\r' :: '\n' :: rest).takeWhile (fun c => c != '\n') = ['\r'] := by
    simp [List.takeWhile_cons]
  have hd : ('\r' :: '\n' :: rest).dropWhile (fun c => c != '\n') = '\n' :: rest := by
    simp [List.dropWhile_cons]
  rw [ht, hd]
  have hlast : (L ++ ['\r']).getLast? = some '\r' := List.getLast?_concat _
  simp only [hlast, if_pos]
  rw [List.dropLast_concat]

/-- `strings.Cut` at a space, on an explicit space-free first component. -/
theorem cutSpace_append {A : List Char} (B : List Char) (h : ' ' ∉ A) :
    cutSpace (A ++ ' ' :: B) = (A, B, true) := by
  have hall : ∀ c ∈ A, (c != ' ') = true := by
    intro c hc
    have : c ≠ ' ' := fun he => h (he ▸ hc)
    simpa using this
  unfold cutSpace
  rw [dropWhile_append_all _ _ hall]
  simp only [List.dropWhile_cons]
  rw [takeWhile_append_all _ _ hall]
  simp [List.takeWhile_cons]

/-- A successful `strings.Cut` decomposes its input at the first space. -/
theorem cutSpace_eq_true {L a b : List Char} (h : cutSpace L = (a, b, true)) :
    L = a ++ ' ' :: b ∧ ' ' ∉ a := by
  unfold cutSpace at h
  rcases hdw : L.dropWhile (fun c => c != ' ') with _ | ⟨c, after⟩ <;> rw [hdw] at h
  · simp at h
  · simp only [Prod.mk.injEq] at h
    obtain ⟨h1, h2, -⟩ := h
    have hc := dropWhile_head_false (p := fun x => x != ' ') L c after hdw
    have hc' : c = ' ' := by simpa using hc
    subst hc' h1 h2
    constructor
    · conv_lhs => rw [← List.takeWhile_append_dropWhile (p := fun c => c != ' ') (l := L)]
      rw [hdw]
    · intro hmem
      have := List.mem_takeWhile_imp hmem
      simp at this

/-- A valid HTTP token contains no space, CR or LF. -/
theorem isValidMethod_no_specials {m : String} (h : isValidMethod m = true) :
    ' ' ∉ m.data ∧ '\n' ∉ m.data ∧ '\r' ∉ m.data := by
  unfold isValidMethod ValidHeaderFieldName at h
  simp only [Bool.and_eq_true, List.all_eq_true] at h
  obtain ⟨-, hall⟩ := h
  refine ⟨?_, ?_, ?_⟩ <;> intro hmem <;> have := hall _ hmem <;> simp [isTokenChar] at this

/-- A request line that two `strings.Cut` calls split successfully holds at
least two spaces. -/
theorem parseRequestLine_two_spaces {L : List Char} {m u p : String}
    (h : parseRequestLine ⟨L⟩ = (m, u, p, true)) : 2 ≤ L.count ' ' := by
  unfold parseRequestLine at h
  rcases hc1 : cutSpace L with ⟨a, rest1, ok1⟩
  rcases hc2 : cutSpace rest1 with ⟨c, d, ok2⟩
  rw [show (⟨L⟩ : String).data = L from rfl, hc1] at h
  simp only at h
  rw [hc2] at h
  simp only at h
  cases ok1 <;> cases ok2 <;> simp at h
  obtain ⟨hL, ha⟩ := cutSpace_eq_true hc1
  obtain ⟨hr, hc⟩ := cutSpace_eq_true hc2
  subst hL
  subst hr
  simp only [List.count_append, List.count_cons, beq_self_eq_true, if_pos, if_true]
  omega

/-! ## C5: Content-Length computation and preventive rejection -/

/-- C5: `ReadRequest` computes `Content-Length` from the parsed headers —
an absent value (and any string rejected by `strconv.Atoi`) counts as 0 —
and whenever the computed value exceeds `MAX_BODY_SIZE` it returns the
dedicated `ErrBodyTooLarge` with the stream still positioned directly
after the header block, i.e. without a single body byte consumed. -/
theorem c5_content_length_guard :
    (∀ (stream L s1 : List Char) (m u p : String) (hdrs : Header) (s2 : List Char),
      readLine stream = some (L, s1) →
      parseRequestLine ⟨L⟩ = (m, u, p, true) →
      isValidMethod m = true →
      readMIMEHeader s1 = .ok (hdrs, s2) →
      ((hdrs.lookup "Host").getD []).length ≤ 1 →
      goAtoi (hdrs.get "Content-Length") > (MAX_BODY_SIZE : Int) →
      ReadRequest stream = (.error .bodyTooLarge, s2)) ∧
    (∀ hdrs : Header, hdrs.lookup "Content-Length" = none →
      goAtoi (hdrs.get "Content-Length") = 0) ∧
    (∀ v : String, atoiNumeric v = false → goAtoi v = 0) := by
  refine ⟨?_, ?_, ?_⟩
  · intro stream L s1 m u p hdrs s2 hrl hpl hvm hmime hhost hcl
    unfold ReadRequest
    rw [hrl]
    simp only
    rw [hpl]
    simp only [hvm, Bool.not_true, Bool.false_eq_true, if_false]
    rw [hmime]
    simp only
    rw [if_neg (by omega), if_pos hcl]
  · intro hdrs hnone
    unfold Header.get
    rw [hnone]
    simp only
    rfl
  · intro v hnum
    unfold goAtoi
    rw [hnum]
    simp

/-- Witness for C5: a declared `Content-Length` of `1048577` (one over the
maximum) is rejected with the stream exactly at the end of the headers,
plus the absent / non-numeric cases. -/
theorem c5_content_length_guard_witness :
    goAtoi "1048577" > (MAX_BODY_SIZE : Int) ∧
    ReadRequest ("POST / HTTP/1.1\r\nContent-Length: 1048577\r\n\r\nbody").data
      = (.error .bodyTooLarge, "body".data) ∧
    goAtoi (Header.get [] "Content-Length") = 0 ∧
    goAtoi "17zz" = 0 := by
  refine ⟨by decide, ?_, ?_, ?_⟩
  · exact (c5_content_length_guard).1
      ("POST / HTTP/1.1\r\nContent-Length: 1048577\r\n\r\nbody").data
      ("POST / HTTP/1.1").data ("Content-Length: 1048577\r\n\r\nbody").data
      "POST" "/" "HTTP/1.1" [("Content-Length", ["1048577"])] ("body").data
      rfl rfl rfl rfl (by decide) (by decide)
  · exact (c5_content_length_guard).2.1 [] rfl
  · exact (c5_content_length_guard).2.2 "17zz" rfl

/-! ## C8: request-line parsing -/

/-- C8: (i) for a CRLF-terminated request line `METHOD SP TARGET SP PROTO`
with a valid-token method and a space-free target, `ReadRequest` returns a
`Request` carrying exactly those three substrings verbatim (for any
remainder whose header block parses, and whatever body the declared length
selects); (ii) a request line holding fewer than two spaces is rejected as
a malformed-request error; (iii) so is one whose method is not a valid
HTTP token. -/
theorem c8_request_line :
    (∀ (m t p : String) (rest : List Char) (hdrs : Header) (s2 : List Char),
      isValidMethod m = true →
      ' ' ∉ t.data → '\n' ∉ t.data → '\r' ∉ t.data →
      '\n' ∉ p.data → '\r' ∉ p.data →
      readMIMEHeader rest = .ok (hdrs, s2) →
      ((hdrs.lookup "Host").getD []).length ≤ 1 →
      goAtoi (hdrs.get "Content-Length") ≤ (MAX_BODY_SIZE : Int) →
      ReadRequest ((m.data ++ ' ' :: t.data ++ ' ' :: p.data) ++ '\r' :: '\n' :: rest)
        = (.ok ⟨m, t, p, hdrs,
            if 0 < goAtoi (hdrs.get "Content-Length") then
              s2.take (goAtoi (hdrs.get "Content-Length")).toNat
            else []⟩,
           if 0 < goAtoi (hdrs.get "Content-Length") then
             s2.drop (goAtoi (hdrs.get "Content-Length")).toNat
           else s2)) ∧
    (∀ (L rest : List Char), '\n' ∉ L → '\r' ∉ L → L.count ' ' < 2 →
      ReadRequest (L ++ '\r' :: '\n' :: rest)
        = (.error (.badString "Malformed HTTP request" ⟨L⟩), rest)) ∧
    (∀ (L rest : List Char) (m u p : String), '\n' ∉ L → '\r' ∉ L →
      parseRequestLine ⟨L⟩ = (m, u, p, true) → isValidMethod m = false →
      ReadRequest (L ++ '\r' :: '\n' :: rest)
        = (.error (.badString "Malformed HTTP request" ⟨L⟩), rest)) := by
  refine ⟨?_, ?_, ?_⟩
  · intro m t p rest hdrs s2 hvm ht1 ht2 ht3 hp1 hp2 hmime hhost hcl
    obtain ⟨hm1, hm2, hm3⟩ := isValidMethod_no_specials hvm
    have hnL : '\n' ∉ m.data ++ ' ' :: t.data ++ ' ' :: p.data := by
      intro hmem
      rcases List.mem_append.mp hmem with h | h
      · rcases List.mem_append.mp h with h | h
        · exact hm2 h
        · rcases List.mem_cons.mp h with h | h
          · exact absurd h (by decide)
          · exact ht2 h
      · rcases List.mem_cons.mp h with h | h
        · exact absurd h (by decide)
        · exact hp1 h
    have hrL : '\r' ∉ m.data ++ ' ' :: t.data ++ ' ' :: p.data := by
      intro hmem
      rcases List.mem_append.mp hmem with h | h
      · rcases List.mem_append.mp h with h | h
        · exact hm3 h
        · rcases List.mem_cons.mp h with h | h
          · exact absurd h (by decide)
          · exact ht3 h
      · rcases List.mem_cons.mp h with h | h
        · exact absurd h (by decide)
        · exact hp2 h
    have hcut1 : cutSpace (m.data ++ ' ' :: (t.data ++ ' ' :: p.data))
        = (m.data, t.data ++ ' ' :: p.data, true) := cutSpace_append _ hm1
    have hcut2 : cutSpace (t.data ++ ' ' :: p.data) = (t.data, p.data, true) :=
      cutSpace_append _ ht1
    have hpl : parseRequestLine ⟨m.data ++ ' ' :: t.data ++ ' ' :: p.data⟩
        = (m, t, p, true) := by
      unfold parseRequestLine
      rw [show (⟨m.data ++ ' ' :: t.data ++ ' ' :: p.data⟩ : String).data
          = m.data ++ ' ' :: (t.data ++ ' ' :: p.data) from by simp]
      rw [hcut1]
      simp only
      rw [hcut2]
      rfl
    unfold ReadRequest
    rw [show (m.data ++ ' ' :: t.data ++ ' ' :: p.data) ++ '\r' :: '\n' :: rest
        = (m.data ++ ' ' :: t.data ++ ' ' :: p.data) ++ '\r' :: '\n' :: rest from rfl]
    rw [readLine_crlf rest hnL hrL]
    simp only
    rw [hpl]
    simp only [hvm, Bool.not_true, Bool.false_eq_true, if_false]
    rw [hmime]
    simp only
    rw [if_neg (by omega)]
    rw [if_neg (by omega)]
    by_cases hpos : goAtoi (hdrs.get "Content-Length") > 0
    · rw [if_pos hpos]
      obtain ⟨hio1, hio2⟩ := ioReadAll_take_drop (s2.length + 1) s2
        (goAtoi (hdrs.get "Content-Length")) (by omega) (by omega)
      rw [hio1, hio2, if_pos (by omega), if_pos (by omega)]
    · rw [if_neg hpos, if_neg (by omega), if_neg (by omega)]
  · intro L rest hnL hrL hcount
    unfold ReadRequest
    rw [readLine_crlf rest hnL hrL]
    simp only
    rcases hpl : parseRequestLine ⟨L⟩ with ⟨m, u, p, ok⟩
    cases ok
    · rfl
    · have := parseRequestLine_two_spaces hpl
      omega
  · intro L rest m u p hnL hrL hpl hvm
    unfold ReadRequest
    rw [readLine_crlf rest hnL hrL]
    simp only
    rw [hpl]
    simp only [hvm, Bool.not_false, if_true]

/-- Witness for C8: `GET /x HTTP/1.1` parses verbatim; `GET` alone (one
token) and a non-token method are malformed. -/
theorem c8_request_line_witness :
    ("GET".data ++ ' ' :: "/x".data ++ ' ' :: "HTTP/1.1".data) ++ '\r' :: '\n' :: "\r\n".data
      = ("GET /x HTTP/1.1\r\n\r\n").data ∧
    ReadRequest ("GET /x HTTP/1.1\r\n\r\n").data
      = (.ok ⟨"GET", "/x", "HTTP/1.1", [], []⟩, []) ∧
    ReadRequest ("GET\r\n").data
      = (.error (.badString "Malformed HTTP request" "GET"), []) ∧
    ReadRequest ("G(T /x HTTP/1.1\r\n\r\n").data
      = (.error (.badString "Malformed HTTP request" "G(T /x HTTP/1.1"), "\r\n".data) := by
  have heq : ("GET".data ++ ' ' :: "/x".data ++ ' ' :: "HTTP/1.1".data)
      ++ '\r' :: '\n' :: "\r\n".data = ("GET /x HTTP/1.1\r\n\r\n").data := rfl
  refine ⟨heq, ?_, ?_, ?_⟩
  · have := (c8_request_line).1 "GET" "/x" "HTTP/1.1" ("\r\n").data [] []
      (by decide) (by decide) (by decide) (by decide) (by decide) (by decide)
      rfl (by decide) (by decide)
    rw [heq] at this
    simpa using this
  · have := (c8_request_line).2.1 ("GET").data [] (by decide) (by decide) (by decide)
    simpa using this
  · have := (c8_request_line).2.2 ("G(T /x HTTP/1.1").data ("\r\n").data
      "G(T" "/x" "HTTP/1.1" (by decide) (by decide) rfl (by decide)
    simpa using this

/-! ## C4: short body reads -/

/-- Counterexample for C4 as stated: a request declaring
`Content-Length: 5` whose stream ends after only two body bytes does *not*
produce a parse error — `io.ReadAll` swallows the end-of-stream, so
`ReadRequest` returns a `Request` whose body holds just the two delivered
bytes. -/
theorem c4_short_read_counterexample :
    ReadRequest ("POST /submit HTTP/1.1\r\nContent-Length: 5\r\n\r\nab").data
      = (.ok ⟨"POST", "/submit", "HTTP/1.1", [("Content-Length", ["5"])], "ab".data⟩, []) ∧
    goAtoi (Header.get [("Content-Length", ["5"])] "Content-Length") = 5 ∧
    ("ab".data).length < 5 := by
  exact ⟨rfl, by decide, by decide⟩

/-- C4 (amended): when the computed `Content-Length` `N` is positive, at
most the maximum, and the stream ends before `N` body bytes arrive,
`ReadRequest` succeeds and returns a `Request` whose body is exactly the
bytes that were delivered (the whole remainder of the stream), leaving the
stream empty; no parse error is reported for the short read. -/
theorem c4_short_read_amended (stream L s1 : List Char) (m u p : String)
    (hdrs : Header) (s2 : List Char)
    (hrl : readLine stream = some (L, s1))
    (hpl : parseRequestLine ⟨L⟩ = (m, u, p, true))
    (hvm : isValidMethod m = true)
    (hmime : readMIMEHeader s1 = .ok (hdrs, s2))
    (hhost : ((hdrs.lookup "Host").getD []).length ≤ 1)
    (hpos : 0 < goAtoi (hdrs.get "Content-Length"))
    (hmax : goAtoi (hdrs.get "Content-Length") ≤ (MAX_BODY_SIZE : Int))
    (hshort : s2.length < (goAtoi (hdrs.get "Content-Length")).toNat) :
    ReadRequest stream = (.ok ⟨m, u, p, hdrs, s2⟩, []) := by
  unfold ReadRequest
  rw [hrl]
  simp only
  rw [hpl]
  simp only [hvm, Bool.not_true, Bool.false_eq_true, if_false]
  rw [hmime]
  simp only
  rw [if_neg (by omega), if_neg (by omega), if_pos (by omega)]
  obtain ⟨hio1, hio2⟩ := ioReadAll_take_drop (s2.length + 1) s2
    (goAtoi (hdrs.get "Content-Length")) (by omega) (by omega)
  rw [hio1, hio2]
  rw [List.take_of_length_le (by omega), List.drop_eq_nil_of_le (by omega)]

/-- Witness for C4 (amended) at the concrete short-body request. -/
theorem c4_short_read_amended_witness :
    ("ab".data).length < (goAtoi (Header.get [("Content-Length", ["5"])] "Content-Length")).toNat ∧
    ReadRequest ("POST /submit HTTP/1.1\r\nContent-Length: 5\r\n\r\nab").data
      = (.ok ⟨"POST", "/submit", "HTTP/1.1", [("Content-Length", ["5"])], "ab".data⟩, []) := by
  refine ⟨by decide, ?_⟩
  exact c4_short_read_amended
    ("POST /submit HTTP/1.1\r\nContent-Length: 5\r\n\r\nab").data
    ("POST /submit HTTP/1.1").data ("Content-Length: 5\r\n\r\nab").data
    "POST" "/submit" "HTTP/1.1" [("Content-Length", ["5"])] ("ab").data
    rfl rfl rfl rfl (by decide) (by decide) (by decide) (by decide)

/-! ## C7: header key canonicalization and case-sensitive lookup -/

theorem char_toNat_ofNat (n : Nat) (h : n < 128) : (Char.ofNat n).toNat = n := by
  have hv : n.isValidChar := Or.inl (by omega)
  rw [Char.ofNat, dif_pos hv]
  simp [Char.toNat, Char.ofNatAux, UInt32.toNat, UInt32.ofNatCore]

theorem char_toNat_injective (a b : Char) (h : a.toNat = b.toNat) : a = b := by
  apply Char.ext
  exact UInt32.ext h

theorem asciiToUpper_toNat (c : Char) :
    (asciiToUpper c).toNat =
      if 97 ≤ c.toNat ∧ c.toNat ≤ 122 then c.toNat - 32 else c.toNat := by
  unfold asciiToUpper
  split
  · rename_i h
    exact char_toNat_ofNat _ (by omega)
  · rfl

theorem asciiToLower_toNat (c : Char) :
    (asciiToLower c).toNat =
      if 65 ≤ c.toNat ∧ c.toNat ≤ 90 then c.toNat + 32 else c.toNat := by
  unfold asciiToLower
  split
  · rename_i h
    exact char_toNat_ofNat _ (by omega)
  · rfl

theorem isTokenChar_iff (c : Char) : isTokenChar c = true ↔
    ((48 ≤ c.toNat ∧ c.toNat ≤ 57) ∨ (97 ≤ c.toNat ∧ c.toNat ≤ 122) ∨
     (65 ≤ c.toNat ∧ c.toNat ≤ 90) ∨
     c.toNat = 33 ∨ c.toNat = 35 ∨ c.toNat = 36 ∨ c.toNat = 37 ∨ c.toNat = 38 ∨
     c.toNat = 39 ∨ c.toNat = 42 ∨ c.toNat = 43 ∨ c.toNat = 45 ∨ c.toNat = 46 ∨
     c.toNat = 94 ∨ c.toNat = 95 ∨ c.toNat = 96 ∨ c.toNat = 124 ∨ c.toNat = 126) := by
  unfold isTokenChar
  simp only [Bool.or_eq_true, Bool.and_eq_true, decide_eq_true_eq, beq_iff_eq]
  omega

theorem isTokenChar_asciiToUpper {c : Char} (h : isTokenChar c = true) :
    isTokenChar (asciiToUpper c) = true := by
  rw [isTokenChar_iff] at h ⊢
  rw [asciiToUpper_toNat]
  split <;> omega

theorem isTokenChar_asciiToLower {c : Char} (h : isTokenChar c = true) :
    isTokenChar (asciiToLower c) = true := by
  rw [isTokenChar_iff] at h ⊢
  rw [asciiToLower_toNat]
  split <;> omega

theorem asciiToUpper_idem (c : Char) :
    asciiToUpper (asciiToUpper c) = asciiToUpper c := by
  apply char_toNat_injective
  simp only [asciiToUpper_toNat]
  split_ifs <;> omega

theorem asciiToLower_idem (c : Char) :
    asciiToLower (asciiToLower c) = asciiToLower c := by
  apply char_toNat_injective
  simp only [asciiToLower_toNat]
  split_ifs <;> omega

theorem canonChars_mem {b : Bool} {l : List Char} {c' : Char}
    (h : c' ∈ canonChars b l) :
    ∃ c ∈ l, c' = asciiToUpper c ∨ c' = asciiToLower c := by
  induction l generalizing b with
  | nil => simp [canonChars] at h
  | cons c rest ih =>
    rw [canonChars] at h
    simp only [List.mem_cons] at h
    rcases h with h | h
    · by_cases hb : b
      · exact ⟨c, List.mem_cons_self _ _, Or.inl (by simpa [canonCaseMap, hb] using h)⟩
      · exact ⟨c, List.mem_cons_self _ _, Or.inr (by simpa [canonCaseMap, hb] using h)⟩
    · obtain ⟨d, hd, hcase⟩ := ih h
      exact ⟨d, List.mem_cons_of_mem _ hd, hcase⟩

theorem canonChars_idem : ∀ (b : Bool) (l : List Char),
    canonChars b (canonChars b l) = canonChars b l := by
  intro b l
  induction l generalizing b with
  | nil => rfl
  | cons c rest ih =>
    simp only [canonChars]
    have hidem : canonCaseMap b (canonCaseMap b c) = canonCaseMap b c := by
      cases b <;> simp [canonCaseMap, asciiToUpper_idem, asciiToLower_idem]
    rw [hidem, ih]

/-- The canonicalization is idempotent: its outputs are fixed points. -/
theorem canonicalMIMEHeaderKey_idem {k k' : String}
    (h : canonicalMIMEHeaderKey k = some k') :
    canonicalMIMEHeaderKey k' = some k' := by
  unfold canonicalMIMEHeaderKey at h
  by_cases hinv : k.data.any (fun c => !validHeaderFieldByte c && !(c == ' '))
  · rw [if_pos hinv] at h
    simp at h
  · rw [if_neg hinv] at h
    by_cases hsp : k.data.any (fun c => c == ' ')
    · rw [if_pos hsp] at h
      simp only [Option.some.injEq] at h
      subst h
      unfold canonicalMIMEHeaderKey
      rw [if_neg hinv, if_pos hsp]
    · rw [if_neg hsp] at h
      simp only [Option.some.injEq] at h
      subst h
      have htok : ∀ c ∈ k.data, isTokenChar c = true := by
        intro c hc
        by_cases ht : isTokenChar c
        · exact ht
        · exfalso
          apply hinv
          rw [List.any_eq_true]
          refine ⟨c, hc, ?_⟩
          have hcsp : ¬ (c == ' ') = true := by
            intro habs
            have : c = ' ' := eq_of_beq habs
            subst this
            apply hsp
            rw [List.any_eq_true]
            exact ⟨' ', hc, by simp⟩
          simp only [validHeaderFieldByte]
          simp [ht, hcsp]
      have hout : ∀ c' ∈ canonChars true k.data, isTokenChar c' = true := by
        intro c' hc'
        obtain ⟨c, hc, hcase⟩ := canonChars_mem hc'
        rcases hcase with h | h <;> subst h
        · exact isTokenChar_asciiToUpper (htok c hc)
        · exact isTokenChar_asciiToLower (htok c hc)
      unfold canonicalMIMEHeaderKey
      rw [if_neg, if_neg]
      · rw [show (⟨canonChars true k.data⟩ : String).data = canonChars true k.data from rfl]
        rw [canonChars_idem]
      · rw [show (⟨canonChars true k.data⟩ : String).data = canonChars true k.data from rfl]
        rw [List.any_eq_true]
        rintro ⟨c', hc', hcsp⟩
        have := hout c' hc'
        rw [isTokenChar_iff] at this
        have : c' ≠ ' ' := by
          intro habs
          subst habs
          revert this
          decide
        simp [this] at hcsp
      · rw [show (⟨canonChars true k.data⟩ : String).data = canonChars true k.data from rfl]
        rw [List.any_eq_true]
        rintro ⟨c', hc', hbad⟩
        have := hout c' hc'
        simp only [validHeaderFieldByte] at hbad
        simp [this] at hbad

/-- Keys added by `Header.add` come from the existing keys or the new key. -/
theorem Header.add_keys {m : Header} {key value : String} {kv : String × List String}
    (h : kv ∈ m.add key value) : kv.1 ∈ m.map Prod.fst ∨ kv.1 = key := by
  unfold Header.add at h
  by_cases hk : (m.lookup key).isSome
  · rw [if_pos hk] at h
    rw [List.mem_map] at h
    obtain ⟨kv', hkv', heq⟩ := h
    left
    rw [List.mem_map]
    refine ⟨kv', hkv', ?_⟩
    subst heq
    by_cases hb : kv'.1 == key <;> simp [hb]
  · rw [if_neg hk] at h
    rcases List.mem_append.mp h with h | h
    · left
      rw [List.mem_map]
      exact ⟨kv, h, rfl⟩
    · right
      simp only [List.mem_singleton] at h
      subst h
      rfl

/-- Every key the MIME-header loop stores is a fixed point of
canonicalization. -/
theorem readMIMEHeaderLoop_keys : ∀ (fuel : Nat) (s : List Char) (m : Header)
    (hdrs : Header) (rest : List Char),
    (∀ kv ∈ m, canonicalMIMEHeaderKey kv.1 = some kv.1) →
    readMIMEHeaderLoop fuel s m = .ok (hdrs, rest) →
    ∀ kv ∈ hdrs, canonicalMIMEHeaderKey kv.1 = some kv.1 := by
  intro fuel
  induction fuel with
  | zero => intro s m hdrs rest hm h; simp [readMIMEHeaderLoop] at h
  | succ fuel ih =>
    intro s m hdrs rest hm h
    rw [readMIMEHeaderLoop] at h
    rcases hcl : readContinuedLine s with e | ⟨kv, rest1⟩ <;> rw [hcl] at h
    · simp at h
    · simp only at h
      by_cases hkv : kv = []
      · rw [if_pos hkv] at h
        simp only [Except.ok.injEq, Prod.mk.injEq] at h
        obtain ⟨h1, h2⟩ := h
        subst h1
        exact hm
      · rw [if_neg hkv] at h
        rcases hcc : cutColon kv with _ | ⟨k, v⟩ <;> rw [hcc] at h
        · simp at h
        · simp only at h
          rcases hck : canonicalMIMEHeaderKey ⟨k⟩ with _ | key <;> rw [hck] at h
          · simp at h
          · simp only at h
            by_cases hval : !v.all validHeaderValueByte
            · simp [hval] at h
            · simp only [hval, Bool.false_eq_true, if_false] at h
              apply ih rest1 (m.add key ⟨v.dropWhile isSpTab⟩) hdrs rest _ h
              intro kv' hkv'
              rcases Header.add_keys hkv' with hmem | hnew
              · rw [List.mem_map] at hmem
                obtain ⟨kv'', hkv'', heq⟩ := hmem
                rw [← heq]
                exact hm kv'' hkv''
              · rw [hnew]
                exact canonicalMIMEHeaderKey_idem hck

/-- Counterexample for C7 as stated: the parser stores `Content-Length`
under its canonical key, and `Header.Get` is a plain case-sensitive map
lookup, so the ASCII-case-equal keys `"Content-Length"` and
`"content-length"` retrieve different results on a parser-produced
header. -/
theorem c7_counterexample :
    readMIMEHeader ("Content-Length: 5\r\n\r\n").data
      = .ok ([("Content-Length", ["5"])], []) ∧
    goToLower "Content-Length" = goToLower "content-length" ∧
    Header.get [("Content-Length", ["5"])] "Content-Length" = "5" ∧
    Header.get [("Content-Length", ["5"])] "content-length" = "" := by
  refine ⟨rfl, by decide, rfl, rfl⟩

/-- C7 (amended): header lookup is case-*sensitive*. Every key a
parser-produced header stores is a fixed point of MIME canonicalization,
and `Get` on any key that is not such a fixed point (in particular on any
non-canonical spelling of a stored header name) returns `""`; only the
exact canonical spelling retrieves the value. -/
theorem c7_amended_case_sensitive_get (s : List Char) (hdrs : Header)
    (rest : List Char) (key : String)
    (hmime : readMIMEHeader s = .ok (hdrs, rest))
    (hkey : canonicalMIMEHeaderKey key ≠ some key) :
    (∀ kv ∈ hdrs, canonicalMIMEHeaderKey kv.1 = some kv.1) ∧
    Header.get hdrs key = "" := by
  have hkeys : ∀ kv ∈ hdrs, canonicalMIMEHeaderKey kv.1 = some kv.1 := by
    unfold readMIMEHeader at hmime
    rcases s with _ | ⟨c, s0⟩
    · exact readMIMEHeaderLoop_keys 1 [] [] hdrs rest (by simp) hmime
    · dsimp only at hmime
      by_cases hsp : isSpTab c
      · rw [if_pos hsp] at hmime
        simp at hmime
      · rw [if_neg hsp] at hmime
        exact readMIMEHeaderLoop_keys ((c :: s0).length + 1) (c :: s0) [] hdrs rest
          (by simp) hmime
  refine ⟨hkeys, ?_⟩
  have hnone : hdrs.lookup key = none := by
    apply lookup_eq_none_of_not_mem_keys
    intro hmem
    rw [List.mem_map] at hmem
    obtain ⟨kv, hkv, heq⟩ := hmem
    exact hkey (heq ▸ hkeys kv hkv)
  unfold Header.get
  rw [hnone]

/-- Witness for C7 (amended): on the parsed `Content-Length: 5` header, the
lower-case spelling is not canonical and retrieves nothing. -/
theorem c7_amended_case_sensitive_get_witness :
    readMIMEHeader ("Content-Length: 5\r\n\r\n").data
      = .ok ([("Content-Length", ["5"])], []) ∧
    canonicalMIMEHeaderKey "content-length" ≠ some "content-length" ∧
    Header.get [("Content-Length", ["5"])] "content-length" = "" := by
  refine ⟨rfl, by decide, ?_⟩
  exact (c7_amended_case_sensitive_get ("Content-Length: 5\r\n\r\n").data
    [("Content-Length", ["5"])] [] "content-length" rfl (by decide)).2

/-! ## C2 / C10: the prefix router -/

theorem searchLoop_spec (f : Nat → Bool)
    (mono : ∀ a b : Nat, a ≤ b → f a = true → f b = true) :
    ∀ (fuel i j : Nat), j - i < fuel → i ≤ j →
      (∀ k, k < i → f k = false) → (∀ k, j ≤ k → f k = true) →
      i ≤ searchLoop f fuel i j ∧ searchLoop f fuel i j ≤ j ∧
      (∀ k, k < searchLoop f fuel i j → f k = false) ∧
      (∀ k, searchLoop f fuel i j ≤ k → f k = true) := by
  intro fuel
  induction fuel with
  | zero => intro i j h; omega
  | succ fuel ih =>
    intro i j hfuel hij hlow hhigh
    rw [searchLoop]
    by_cases hlt : i < j
    · rw [if_pos hlt]
      dsimp only
      have hmid1 : i ≤ (i + j) / 2 := by omega
      have hmid2 : (i + j) / 2 < j := by omega
      by_cases hf : f ((i + j) / 2)
      · rw [if_pos hf]
        obtain ⟨a1, a2, a3, a4⟩ := ih i ((i + j) / 2) (by omega) (by omega) hlow
          (fun k hk => mono _ _ hk hf)
        exact ⟨a1, by omega, a3, a4⟩
      · rw [if_neg hf]
        obtain ⟨a1, a2, a3, a4⟩ := ih ((i + j) / 2 + 1) j (by omega) (by omega)
          (fun k hk => by
            cases hfk : f k
            · rfl
            · exact absurd (mono k ((i + j) / 2) (by omega) hfk) (by simp [hf]))
          hhigh
        exact ⟨by omega, a2, a3, a4⟩
    · rw [if_neg hlt]
      have : i = j := by omega
      subst this
      exact ⟨le_refl _, le_refl _, hlow, hhigh⟩

theorem mem_insert_at {α : Type} (es : List α) (e x : α) (i : Nat) :
    x ∈ es.take i ++ e :: es.drop i ↔ x ∈ es ∨ x = e := by
  constructor
  · intro h
    rcases List.mem_append.mp h with h | h
    · exact Or.inl (List.take_subset _ _ h)
    · rcases List.mem_cons.mp h with h | h
      · exact Or.inr h
      · exact Or.inl (List.drop_subset _ _ h)
  · intro h
    rcases h with h | h
    · conv at h => rw [← List.take_append_drop i es]
      rcases List.mem_append.mp h with h | h
      · exact List.mem_append.mpr (Or.inl h)
      · exact List.mem_append.mpr (Or.inr (List.mem_cons_of_mem _ h))
    · subst h
      exact List.mem_append.mpr (Or.inr (List.mem_cons_self _ _))

theorem pairwise_insert_at {R : muxEntry → muxEntry → Prop} :
    ∀ (es : List muxEntry) (e : muxEntry) (i : Nat),
    es.Pairwise R →
    (∀ (k : Nat) (hk : k < es.length), k < i → R (es.get ⟨k, hk⟩) e) →
    (∀ (k : Nat) (hk : k < es.length), i ≤ k → R e (es.get ⟨k, hk⟩)) →
    (es.take i ++ e :: es.drop i).Pairwise R := by
  intro es
  induction es with
  | nil =>
    intro e i h1 h2 h3
    simp
  | cons x xs ih =>
    intro e i hp h2 h3
    rw [List.pairwise_cons] at hp
    cases i with
    | zero =>
      simp only [List.take_zero, List.drop_zero, List.nil_append]
      rw [List.pairwise_cons]
      constructor
      · intro b hb
        obtain ⟨⟨k, hk⟩, rfl⟩ := List.mem_iff_get.mp hb
        exact h3 k hk (Nat.zero_le _)
      · rw [List.pairwise_cons]
        exact hp
    | succ i =>
      simp only [List.take_succ_cons, List.drop_succ_cons, List.cons_append]
      rw [List.pairwise_cons]
      constructor
      · intro b hb
        rcases (mem_insert_at xs e b i).mp hb with h | h
        · exact hp.1 b h
        · subst h
          exact h2 0 (by simp) (Nat.succ_pos _)
      · apply ih e i hp.2
        · intro k hk hki
          exact h2 (k + 1) (by simpa using Nat.succ_lt_succ hk) (Nat.succ_lt_succ hki)
        · intro k hk hki
          exact h3 (k + 1) (by simpa using Nat.succ_lt_succ hk) (Nat.succ_le_succ hki)

/-- The sort order of the prefix list: longest pattern first. -/
def muxGE (a b : muxEntry) : Prop := b.pattern.length ≤ a.pattern.length

theorem getD_eq_get (es : List muxEntry) (k : Nat) (hk : k < es.length) :
    es.getD k default = es.get ⟨k, hk⟩ := by
  rw [List.getD_eq_getD_get?, List.get?_eq_get hk]
  rfl

theorem appendSorted_facts (es : List muxEntry) (e : muxEntry)
    (hs : es.Pairwise muxGE) :
    (appendSorted es e).Pairwise muxGE ∧
    (∀ x, x ∈ appendSorted es e ↔ x ∈ es ∨ x = e) := by
  unfold appendSorted
  dsimp only
  unfold sortSearch
  have hmono : ∀ a b : Nat, a ≤ b →
      (decide ((es.getD a default).pattern.length ≤ e.pattern.length)) = true →
      (decide ((es.getD b default).pattern.length ≤ e.pattern.length)) = true := by
    intro a b hab hfa
    rw [decide_eq_true_eq] at hfa ⊢
    by_cases hb : b < es.length
    · have ha : a < es.length := lt_of_le_of_lt hab hb
      rcases Nat.lt_or_ge a b with hlt | hge
      · have := (List.pairwise_iff_get.mp hs) ⟨a, ha⟩ ⟨b, hb⟩ hlt
        unfold muxGE at this
        rw [getD_eq_get es a ha] at hfa
        rw [getD_eq_get es b hb]
        omega
      · have : a = b := by omega
        subst this
        exact hfa
    · push_neg at hb
      rw [List.getD_eq_default _ _ hb]
      exact Nat.zero_le _
  have hhigh : ∀ k, es.length ≤ k →
      (decide ((es.getD k default).pattern.length ≤ e.pattern.length)) = true := by
    intro k hk
    rw [List.getD_eq_default _ _ hk, decide_eq_true_eq]
    exact Nat.zero_le _
  obtain ⟨h0, hle, hlow, hfull⟩ := searchLoop_spec _ hmono (es.length + 1) 0 es.length
    (by omega) (by omega) (fun k hk => absurd hk (Nat.not_lt_zero k)) hhigh
  set i := searchLoop
    (fun i => decide ((es.getD i default).pattern.length ≤ e.pattern.length))
    (es.length + 1) 0 es.length with hidef
  have hinsert : (es.take i ++ e :: es.drop i).Pairwise muxGE := by
    apply pairwise_insert_at es e i hs
    · intro k hk hki
      have := hlow k hki
      rw [getD_eq_get es k hk] at this
      simp only [decide_eq_false_iff_not] at this
      unfold muxGE
      omega
    · intro k hk hki
      have := hfull k hki
      rw [getD_eq_get es k hk] at this
      unfold muxGE
      simpa using this
  have hmemins : ∀ x, x ∈ es.take i ++ e :: es.drop i ↔ x ∈ es ∨ x = e :=
    fun x => mem_insert_at es e x i
  by_cases hi : i = es.length
  · rw [if_pos hi]
    have heq : es ++ [e] = es.take i ++ e :: es.drop i := by
      rw [hi, List.take_length, List.drop_length]
    rw [heq]
    exact ⟨hinsert, hmemins⟩
  · rw [if_neg hi]
    exact ⟨hinsert, hmemins⟩

/-- The router invariant maintained by `Handle`: the prefix list is sorted
longest-first, holds exactly the registered prefix-eligible patterns with
their registered entries, and the exact-match map stores each entry under
its own pattern. -/
def MuxInv (mux : ServeMux) : Prop :=
  mux.es.Pairwise muxGE ∧
  (∀ e ∈ mux.es, isPrefixPattern e.pattern = true ∧ mux.m.lookup e.pattern = some e) ∧
  (∀ p e, mux.m.lookup p = some e → e.pattern = p) ∧
  (∀ p e, mux.m.lookup p = some e → isPrefixPattern p = true → e ∈ mux.es)

theorem lookup_cons_iff (m : List (String × muxEntry)) (pattern : String)
    (ne : muxEntry) (p : String) (e : muxEntry) :
    (((pattern, ne) :: m).lookup p = some e) ↔
    (p = pattern ∧ e = ne) ∨ (p ≠ pattern ∧ m.lookup p = some e) := by
  cases hpk : p == pattern
  · have hne : p ≠ pattern := ne_of_beq_false hpk
    simp [List.lookup_cons, hpk, hne]
  · have heq : p = pattern := eq_of_beq hpk
    simp [List.lookup_cons, hpk, heq, eq_comm]

theorem Handle_inv {mux : ServeMux} {pattern : String} {handler : Nat}
    {mux' : ServeMux} (hinv : MuxInv mux)
    (h : mux.Handle pattern handler = some mux') : MuxInv mux' := by
  unfold ServeMux.Handle at h
  by_cases hdup : (mux.m.lookup pattern).isSome
  · rw [if_pos hdup] at h
    simp at h
  · rw [if_neg hdup] at h
    simp only [Option.some.injEq] at h
    subst h
    obtain ⟨hsort, hes, hpat, hback⟩ := hinv
    have hnodup : mux.m.lookup pattern = none := by
      rcases hl : mux.m.lookup pattern with _ | w
      · rfl
      · rw [hl] at hdup
        simp at hdup
    refine ⟨?_, ?_, ?_, ?_⟩
    · dsimp only
      by_cases hpp : isPrefixPattern pattern
      · rw [if_pos hpp]
        exact (appendSorted_facts mux.es ⟨handler, pattern⟩ hsort).1
      · rw [if_neg hpp]
        exact hsort
    · intro e he
      dsimp only at he ⊢
      by_cases hpp : isPrefixPattern pattern
      · rw [if_pos hpp] at he
        rcases ((appendSorted_facts mux.es ⟨handler, pattern⟩ hsort).2 e).mp he with
          hold | hnew
        · obtain ⟨h1, h2⟩ := hes e hold
          refine ⟨h1, ?_⟩
          rw [lookup_cons_iff]
          right
          refine ⟨?_, h2⟩
          intro habs
          rw [habs] at h2
          rw [h2] at hnodup
          simp at hnodup
        · subst hnew
          refine ⟨hpp, ?_⟩
          rw [lookup_cons_iff]
          left
          exact ⟨rfl, rfl⟩
      · rw [if_neg hpp] at he
        obtain ⟨h1, h2⟩ := hes e he
        refine ⟨h1, ?_⟩
        rw [lookup_cons_iff]
        right
        refine ⟨?_, h2⟩
        intro habs
        rw [habs] at h2
        rw [h2] at hnodup
        simp at hnodup
    · intro p e hl
      dsimp only at hl
      rcases (lookup_cons_iff _ _ _ _ _).mp hl with ⟨hp, he⟩ | ⟨hp, hl'⟩
      · subst hp
        subst he
        rfl
      · exact hpat p e hl'
    · intro p e hl hpp
      dsimp only at hl ⊢
      rcases (lookup_cons_iff _ _ _ _ _).mp hl with ⟨hp, he⟩ | ⟨hp, hl'⟩
      · subst hp
        subst he
        rw [if_pos hpp]
        exact ((appendSorted_facts mux.es ⟨handler, p⟩ hsort).2 _).mpr (Or.inr rfl)
      · have hmem := hback p e hl' hpp
        by_cases hq : isPrefixPattern pattern
        · rw [if_pos hq]
          exact ((appendSorted_facts mux.es ⟨handler, pattern⟩ hsort).2 _).mpr (Or.inl hmem)
        · rw [if_neg hq]
          exact hmem

theorem buildMux_inv_aux : ∀ (regs : List (String × Nat)) (mux0 mux : ServeMux),
    MuxInv mux0 →
    List.foldlM (fun mux pr => mux.Handle pr.1 pr.2) mux0 regs = some mux →
    MuxInv mux := by
  intro regs
  induction regs with
  | nil =>
    intro mux0 mux h0 h
    simp only [List.foldlM_nil] at h
    simp only [pure, Option.some.injEq] at h
    subst h
    exact h0
  | cons pr rs ih =>
    intro mux0 mux h0 h
    rw [List.foldlM_cons] at h
    rcases hstep : mux0.Handle pr.1 pr.2 with _ | m1 <;> rw [hstep] at h
    · simp at h
    · simp only [Option.bind_eq_bind, Option.some_bind] at h
      exact ih m1 mux (Handle_inv h0 hstep) h

/-- Any mux built by a sequence of `Handle` registrations satisfies the
router invariant. -/
theorem buildMux_inv {regs : List (String × Nat)} {mux : ServeMux}
    (h : buildMux regs = some mux) : MuxInv mux := by
  apply buildMux_inv_aux regs ⟨[], []⟩ mux _ h
  refine ⟨List.Pairwise.nil, ?_, ?_, ?_⟩ <;> simp [List.lookup]

/-- On a longest-first sorted list, the first match found by the linear
scan is a longest match. -/
theorem find?_sorted_max {pred : muxEntry → Bool} :
    ∀ (es : List muxEntry), es.Pairwise muxGE →
    ∀ e, es.find? pred = some e →
    ∀ x ∈ es, pred x = true → x.pattern.length ≤ e.pattern.length := by
  intro es
  induction es with
  | nil =>
    intro h e hf
    simp at hf
  | cons y ys ih =>
    intro hp e hf x hx hpx
    rw [List.find?_cons] at hf
    cases hy : pred y <;> rw [hy] at hf
    · rcases List.mem_cons.mp hx with rfl | hx'
      · rw [hpx] at hy
        cases hy
      · exact ih (List.pairwise_cons.mp hp).2 e hf x hx' hpx
    · simp only [Option.some.injEq] at hf
      subst hf
      rcases List.mem_cons.mp hx with rfl | hx'
      · exact le_refl _
      · exact (List.pairwise_cons.mp hp).1 x hx'

/-- When no registered prefix-eligible pattern is a prefix of the request
path (and there is no exact match), `findHandler` finds nothing and
`ServeHTTP` writes the 404 response without invoking any handler. -/
theorem findHandler_no_match (mux : ServeMux) (r : Request) (w : Response)
    (hinv : MuxInv mux)
    (hnone : mux.m.lookup r.Path = none)
    (hno : ∀ (p : String) (ep : muxEntry), mux.m.lookup p = some ep →
      isPrefixPattern p = true → hasPrefixGo r.Path p = false) :
    mux.findHandler r = (none, "") ∧
    mux.ServeHTTP w r =
      (none, (((w.SetStatus 404 "Not Found").SetBody ("Not Found".data)).Write).2) := by
  obtain ⟨hsort, hes, hpat, hback⟩ := hinv
  have hfnone : mux.es.find? (fun e => hasPrefixGo r.Path e.pattern) = none := by
    rcases hf : mux.es.find? (fun e => hasPrefixGo r.Path e.pattern) with _ | e
    · exact hf
    · exfalso
      have hmem := List.mem_of_find?_eq_some hf
      obtain ⟨hpp, hl⟩ := hes e hmem
      have := hno e.pattern e hl hpp
      have htrue := List.find?_some hf
      simp only at htrue
      rw [htrue] at this
      cases this
  have hfh : mux.findHandler r = (none, "") := by
    unfold ServeMux.findHandler
    rw [hnone, hfnone]
  refine ⟨hfh, ?_⟩
  unfold ServeMux.ServeHTTP
  rw [hfh]

/-- Counterexample for C2 as stated: register only the slash-terminated
pattern `"/"` and request `"/abc"`. `"/"` is a registered slash-terminated
prefix of the path, yet `findHandler` returns no handler and `ServeHTTP`
writes a 404 — `Handle` only admits patterns longer than one byte into the
prefix list. -/
theorem c2_counterexample :
    buildMux [("/", 7)] = some ⟨[("/", ⟨7, "/"⟩)], []⟩ ∧
    ("/" : String).data.getLast? = some '/' ∧
    hasPrefixGo "/abc" "/" = true ∧
    (ServeMux.mk [("/", ⟨7, "/"⟩)] []).m.lookup "/abc" = none ∧
    (ServeMux.mk [("/", ⟨7, "/"⟩)] []).findHandler ⟨"GET", "/abc", "HTTP/1.1", [], []⟩
      = (none, "") ∧
    (ServeMux.mk [("/", ⟨7, "/"⟩)] []).ServeHTTP (NewResponse none)
        ⟨"GET", "/abc", "HTTP/1.1", [], []⟩
      = (none, ((((NewResponse none).SetStatus 404 "Not Found").SetBody
          ("Not Found".data)).Write).2) := by
  exact ⟨rfl, rfl, rfl, rfl, rfl, rfl⟩

/-- C2 (amended): on a mux built by `Handle` registrations, `findHandler`
returns the exact-match entry when the path is registered; otherwise, if
any registered slash-terminated pattern *of length at least two* is a
prefix of the path, it returns a registered slash-terminated prefix of
maximal length among them (the one-byte pattern `"/"` never participates
in prefix matching); when neither exists, `ServeHTTP` writes a 404
response and invokes no handler. -/
theorem c2_amended_router (regs : List (String × Nat)) (mux : ServeMux)
    (hbuild : buildMux regs = some mux) (r : Request) (w : Response) :
    (∀ e, mux.m.lookup r.Path = some e → mux.findHandler r = (some e.h, r.Path)) ∧
    (mux.m.lookup r.Path = none →
      ∀ (p : String) (ep : muxEntry), mux.m.lookup p = some ep →
        isPrefixPattern p = true → hasPrefixGo r.Path p = true →
        ∃ e, mux.findHandler r = (some e.h, e.pattern) ∧
          mux.m.lookup e.pattern = some e ∧ isPrefixPattern e.pattern = true ∧
          hasPrefixGo r.Path e.pattern = true ∧ p.length ≤ e.pattern.length) ∧
    (mux.m.lookup r.Path = none →
      (∀ (p : String) (ep : muxEntry), mux.m.lookup p = some ep →
        isPrefixPattern p = true → hasPrefixGo r.Path p = false) →
      mux.findHandler r = (none, "") ∧
      mux.ServeHTTP w r =
        (none, (((w.SetStatus 404 "Not Found").SetBody ("Not Found".data)).Write).2)) := by
  have hinv := buildMux_inv hbuild
  obtain ⟨hsort, hes, hpat, hback⟩ := hinv
  refine ⟨?_, ?_, ?_⟩
  · intro e hl
    unfold ServeMux.findHandler
    rw [hl]
    dsimp only
    rw [hpat _ _ hl]
  · intro hnone p ep hp hpp hpre
    have hmem : ep ∈ mux.es := hback p ep hp hpp
    have hpatp : ep.pattern = p := hpat _ _ hp
    have hex : ∃ x ∈ mux.es, (fun e => hasPrefixGo r.Path e.pattern) x = true :=
      ⟨ep, hmem, by simpa [hpatp] using hpre⟩
    have hsome := List.find?_isSome.mpr hex
    rcases hf : mux.es.find? (fun e => hasPrefixGo r.Path e.pattern) with _ | e
    · rw [hf] at hsome
      simp at hsome
    · have hemem := List.mem_of_find?_eq_some hf
      obtain ⟨hepp, hel⟩ := hes e hemem
      refine ⟨e, ?_, hel, hepp, by simpa using List.find?_some hf, ?_⟩
      · unfold ServeMux.findHandler
        rw [hnone, hf]
      · have := find?_sorted_max mux.es hsort e hf ep hmem
          (by simpa [hpatp] using hpre)
        rw [hpatp] at this
        exact this
  · intro hnone hno
    exact findHandler_no_match mux r w ⟨hsort, hes, hpat, hback⟩ hnone hno

/-- Witness for C2 (amended) on the routes `/echo` (exact) and `/files/`
(prefix) with request path `/files/x`. -/
theorem c2_amended_router_witness :
    buildMux [("/echo", 1), ("/files/", 2)]
      = some ⟨[("/files/", ⟨2, "/files/"⟩), ("/echo", ⟨1, "/echo"⟩)], [⟨2, "/files/"⟩]⟩ ∧
    (∃ e, (ServeMux.mk [("/files/", ⟨2, "/files/"⟩), ("/echo", ⟨1, "/echo"⟩)]
        [⟨2, "/files/"⟩]).findHandler ⟨"GET", "/files/x", "HTTP/1.1", [], []⟩
        = (some e.h, e.pattern) ∧
      (ServeMux.mk [("/files/", ⟨2, "/files/"⟩), ("/echo", ⟨1, "/echo"⟩)]
        [⟨2, "/files/"⟩]).m.lookup e.pattern = some e ∧
      isPrefixPattern e.pattern = true ∧
      hasPrefixGo "/files/x" e.pattern = true ∧
      ("/files/" : String).length ≤ e.pattern.length) := by
  refine ⟨rfl, ?_⟩
  exact (c2_amended_router [("/echo", 1), ("/files/", 2)]
    ⟨[("/files/", ⟨2, "/files/"⟩), ("/echo", ⟨1, "/echo"⟩)], [⟨2, "/files/"⟩]⟩
    rfl ⟨"GET", "/files/x", "HTTP/1.1", [], []⟩ (NewResponse none)).2.1
    rfl "/files/" ⟨2, "/files/"⟩ rfl (by decide) rfl

/-! ## C10: the pattern "/" never participates in prefix matching -/

/-- C10: `Handle` inserts a pattern into the prefix list exactly when its
length exceeds one and it ends in `'/'`; the one-byte pattern `"/"` fails
that test, so registering it creates only an exact-match route, and a
request whose path has no exact match and no matching prefix-list entry
gets a 404 with no handler invoked even though every such path begins with
`"/"` and `"/"` is registered. -/
theorem c10_root_exact_only :
    isPrefixPattern "/" = false ∧
    (∀ (mux : ServeMux) (pattern : String) (handler : Nat) (mux' : ServeMux),
      mux.Handle pattern handler = some mux' →
      (isPrefixPattern pattern = false → mux'.es = mux.es) ∧
      (isPrefixPattern pattern = true →
        mux'.es = appendSorted mux.es ⟨handler, pattern⟩)) ∧
    (∀ (regs : List (String × Nat)) (mux : ServeMux) (r : Request) (w : Response),
      buildMux regs = some mux →
      (mux.m.lookup "/").isSome = true →
      hasPrefixGo r.Path "/" = true →
      mux.m.lookup r.Path = none →
      (∀ (p : String) (ep : muxEntry), mux.m.lookup p = some ep →
        isPrefixPattern p = true → hasPrefixGo r.Path p = false) →
      mux.findHandler r = (none, "") ∧
      mux.ServeHTTP w r =
        (none, (((w.SetStatus 404 "Not Found").SetBody ("Not Found".data)).Write).2)) := by
  refine ⟨by decide, ?_, ?_⟩
  · intro mux pattern handler mux' h
    unfold ServeMux.Handle at h
    by_cases hdup : (mux.m.lookup pattern).isSome
    · rw [if_pos hdup] at h
      simp at h
    · rw [if_neg hdup] at h
      simp only [Option.some.injEq] at h
      subst h
      constructor
      · intro hpp
        dsimp only
        rw [if_neg (by simp [hpp])]
      · intro hpp
        dsimp only
        rw [if_pos hpp]
  · intro regs mux r w hbuild hroot hpre hnone hno
    exact findHandler_no_match mux r w (buildMux_inv hbuild) hnone hno

/-- Witness for C10: only `"/"` registered, request path `"/abc"`. -/
theorem c10_root_exact_only_witness :
    buildMux [("/", 1)] = some ⟨[("/", ⟨1, "/"⟩)], []⟩ ∧
    (ServeMux.mk [("/", ⟨1, "/"⟩)] []).findHandler ⟨"GET", "/abc", "HTTP/1.1", [], []⟩
      = (none, "") ∧
    (ServeMux.mk [("/", ⟨1, "/"⟩)] []).ServeHTTP (NewResponse none)
        ⟨"GET", "/abc", "HTTP/1.1", [], []⟩
      = (none, ((((NewResponse none).SetStatus 404 "Not Found").SetBody
          ("Not Found".data)).Write).2) := by
  refine ⟨rfl, ?_⟩
  have hno : ∀ (p : String) (ep : muxEntry),
      (ServeMux.mk [("/", ⟨1, "/"⟩)] []).m.lookup p = some ep →
      isPrefixPattern p = true → hasPrefixGo "/abc" p = false := by
    intro p ep hl hpp
    have hmem := lookup_mem hl
    simp only [List.mem_singleton] at hmem
    have hp : p = "/" := congrArg Prod.fst hmem
    rw [hp] at hpp
    exact absurd hpp (by decide)
  exact (c10_root_exact_only).2.2 [("/", 1)] ⟨[("/", ⟨1, "/"⟩)], []⟩
    ⟨"GET", "/abc", "HTTP/1.1", [], []⟩ (NewResponse none)
    rfl rfl rfl rfl hno
